import Mathlib

/-!
Verification development for the compaction core of the hapdb LSM storage
engine (`src/db/compaction_iterator.h`, `src/db/compaction_job.h`,
`src/db/manual_compaction_test.cc`).

The repository ships only the public surface of `CompactionIterator` and
`CompactionJob` (headers plus one end-to-end test); the bodies of
`NextFromInput`, `PrepareOutput`, `InvokeFilterIfNeeded`,
`findEarliestVisibleSnapshot`, `CompactionJob::Run`, `Install` and
`CleanupCompaction` are not part of the sources.  Every definition below that
embeds one of those bodies is therefore modelled from the specification
(`spec.md`), as indicated by its doc comment, and kept faithful to the spec's
record policy: snapshot buckets, hidden-record suppression, tombstone
dropping, SingleDelete lookahead with write-conflict retention, merge-operand
folding, compaction-filter verdicts, sequence-number zeroing, large-value
separation thresholds, and job-level failure handling.
-/

namespace HapDB

/-- ValueType of an internal record (spec §3): tagged variant over
Put, Delete, SingleDelete and Merge.  Range deletions and pass-through
variants are outside the records the claims quantify over. -/
inductive VType where
  | vput
  | vdel
  | vsdel
  | vmerge
  deriving DecidableEq, Repr

/-- An internal record: (UserKey, SequenceNumber, ValueType) plus the value
payload (spec §3, `ParsedInternalKey` in `compaction_iterator.h`). -/
structure Record where
  key : String
  val : String
  vt : VType
  seq : Nat
  deriving DecidableEq, Repr

/-- InternalKey strict order (spec §3): ascending UserKey, then descending
SequenceNumber. -/
def ikLt (a b : Record) : Prop :=
  a.key.data < b.key.data ∨ (a.key = b.key ∧ b.seq < a.seq)

instance : DecidableRel ikLt := fun a b => by unfold ikLt; infer_instance

/-- The error kinds surfaced by the iterator that the claims mention
(spec §7, `status_` in `compaction_iterator.h`). -/
inductive CompactionError where
  | mergeOperatorNotSupported
  deriving DecidableEq, Repr

/-- Compaction configuration visible to the iterator: the snapshot list
(sorted ascending), the bottommost flag, the optional merge operator, the
optional compaction filter (returns `true` when the record must be removed),
the earliest write-conflict snapshot (`none` when no transactions exist), the
`KeyNotExistsBeyondOutputLevel` oracle, and the preserve-deletes /
ingest-behind policy toggles (spec §3, §4.E; constructor parameters in
`compaction_iterator.h`). -/
structure Config where
  snapshots : List Nat
  bottommost : Bool
  mergeOp : Option (String → String → String)
  cfilter : Option (String → String → Bool)
  ewcs : Option Nat
  keyGone : String → Bool
  preserveDeletes : Bool
  preserveSeq : Nat
  ingestBehind : Bool

/-- Modelled from the spec: `findEarliestVisibleSnapshot`
(`compaction_iterator.h` line 146, body not in the sources).  The snapshot
bucket of sequence `q` is the earliest snapshot `s` with `q ≤ s`, or `none`
(above all snapshots) when there is none (spec §4.A). -/
def bucket (snaps : List Nat) (q : Nat) : Option Nat :=
  snaps.find? (fun s => q ≤ s)

/-- Sequence `q` is at or below the earliest snapshot, hence visible to every
snapshot; with an empty snapshot list this is vacuously true, matching the
`kMaxSequenceNumber` convention for `earliest_snapshot_` (spec §4.A). -/
def belowAllSnaps (snaps : List Nat) (q : Nat) : Bool :=
  snaps.all (fun s => q ≤ s)

/-- Fuelled worker for `chunksBy`; the fuel dominates the list length, which
makes the recursion structural so that concrete runs evaluate inside the
kernel. -/
def chunksByF (f : Record → β) [DecidableEq β] : Nat → List Record → List (List Record)
  | _, [] => []
  | 0, _ :: _ => []
  | fuel + 1, r :: rest =>
    (r :: rest.takeWhile (fun x => f x = f r)) ::
      chunksByF f fuel (rest.dropWhile (fun x => f x = f r))

/-- Split a list into maximal runs of consecutive elements sharing the value
of `f`.  Used for the per-user-key groups and, within a group, for the
snapshot-bucket runs of the record policy (spec §4.E). -/
def chunksBy (f : Record → β) [DecidableEq β] (l : List Record) : List (List Record) :=
  chunksByF f l.length l

/-- The merge operator actually used when folding; when no operator is
configured the iterator never reaches a fold (it errors out first), so the
default is irrelevant. -/
def mergeF (cfg : Config) : String → String → String :=
  cfg.mergeOp.getD (fun a b => a ++ b)

/-- Does the configured compaction filter remove this record?  (spec §4.E
Filter: verdict Remove.) -/
def filterRemoves (cfg : Config) (r : Record) : Bool :=
  match cfg.cfilter with
  | some f => f r.key r.val
  | none => false

/-- Modelled from the spec: the Delete emission rule of `NextFromInput`
(`compaction_iterator.h` line 130, body not in the sources).  A Delete is
dropped iff the output is bottommost, its sequence is at or below the
earliest snapshot ("no snapshot spans a lower record"), the key provably does
not exist beyond the output level, and preserve-deletes does not force
retention (spec §4.E emission table, incremental-snapshot retention). -/
def dropTombstone (cfg : Config) (r : Record) : Bool :=
  cfg.bottommost && belowAllSnaps cfg.snapshots r.seq && cfg.keyGone r.key &&
    !(cfg.preserveDeletes && decide (cfg.preserveSeq ≤ r.seq))

/-- Fold a chain of merge operand values (newest first) onto a base value
(spec §4.C, FullMergeV3). -/
def mergeFold (cfg : Config) (ops : List String) (base : String) : String :=
  ops.foldr (mergeF cfg) base

/-- Modelled from the spec: the per-snapshot-bucket record policy of
`NextFromInput` (`compaction_iterator.h` lines 129–130, body not in the
sources).  `run` is one maximal same-bucket run of a user-key group, newest
record first.  Per spec §4.A only the newest record of a bucket need be
retained (all later ones are hidden), so the run head decides:

* Put — apply the compaction filter when the record is above all snapshots
  (spec §4.E Filter: the filter sees only Puts visible at the topmost
  reachable bucket); Remove drops the record, otherwise it is emitted.
  The sampling of `filter_sample_interval_` (`compaction_iterator.h` line
  233) applies only to separated values whose bytes must be fetched; inline
  Puts such as these are always presented to the filter, which is the
  behaviour `ManualCompactionTest::CompactTouchesAllKeys` requires.
* Delete — dropped iff `dropTombstone` allows, else emitted.
* SingleDelete — one-record lookahead (spec §4.E): a Put next in the same
  bucket annihilates together with the SingleDelete, unless the
  write-conflict retention rule (`sd.seq > earliest_write_conflict_snapshot`)
  forces both to be emitted (the retained Put is output without further
  compaction rules, cf. `clear_and_output_next_key_`, `compaction_iterator.h`
  lines 208–210); with no Put next the SingleDelete floats and is emitted
  unchanged.
* Merge — the maximal operand chain is folded onto an immediately following
  Put of the same bucket (spec §4.C FullMergeV3, taking the newest operand's
  sequence number); a chain terminated by a tombstone or by the bucket
  boundary is emitted unchanged (the spec's "otherwise emit the chain
  unchanged" branch — merges may not be collapsed across a snapshot
  boundary). -/
def runOut (cfg : Config) (run : List Record) : List Record :=
  match run with
  | [] => []
  | r :: rest =>
    match r.vt with
    | .vput =>
        if bucket cfg.snapshots r.seq = none ∧ filterRemoves cfg r then []
        else [r]
    | .vdel =>
        if dropTombstone cfg r then [] else [r]
    | .vsdel =>
        match rest with
        | p :: _ =>
          if p.vt = .vput then
            match cfg.ewcs with
            | some w => if w < r.seq then [r, p] else []
            | none => []
          else [r]
        | [] => [r]
    | .vmerge =>
        let ops := r :: rest.takeWhile (fun x => x.vt = .vmerge)
        match rest.dropWhile (fun x => x.vt = .vmerge) with
        | a :: _ =>
          if a.vt = .vput then
            [⟨r.key, mergeFold cfg (ops.map (fun x => x.val)) a.val, .vput, r.seq⟩]
          else ops ++ [a]
        | [] => ops

/-- Modelled from the spec: the zeroing step of `PrepareOutput`
(`compaction_iterator.h` lines 132–135, body not in the sources).  A Put's
sequence number is zeroed for compressibility; a Put emitted by the
write-conflict retention path keeps its sequence (it is output "without
applying any compaction rules"). -/
def zeroRec (cfg : Config) (r : Record) : Record :=
  if r.vt = .vput ∧ (match cfg.ewcs with | none => true | some w => decide (r.seq ≤ w)) = true then
    { r with seq := 0 }
  else r

/-- Modelled from the spec: processing of one user-key group — split into
snapshot-bucket runs, apply the record policy per run, then zero sequence
numbers when the output is bottommost, no snapshot is live, and ingest-behind
does not reserve the bottommost level (spec §4.E, §8 invariant 3, and
`ikeyNotNeededForIncrementalSnapshot` interplay).  Zeroing with a nonempty
snapshot list would move records across snapshot boundaries, so it applies
only when every record is above all snapshots, i.e. the list is empty. -/
def coreOut (cfg : Config) (g : List Record) : List Record :=
  ((chunksBy (fun r => bucket cfg.snapshots r.seq) g).map (runOut cfg)).flatten

def outGroup (cfg : Config) (g : List Record) : List Record :=
  if cfg.bottommost = true ∧ cfg.snapshots = [] ∧ cfg.ingestBehind = false then
    (coreOut cfg g).map (zeroRec cfg)
  else coreOut cfg g

/-- Modelled from the spec: the surviving-record stream of a whole
subcompaction — the input stream split into user-key groups, each processed
by the record policy (spec §4.E data flow). -/
def compactStream (cfg : Config) (input : List Record) : List Record :=
  ((chunksBy (fun r => r.key) input).map (outGroup cfg)).flatten

/-- Modelled from the spec: the compaction iterator as a whole-stream
transducer.  Observing a Merge record with no merge operator configured
drives the iterator into the terminal error state
`MergeOperatorNotSupported` (spec §4.C, §7); otherwise the surviving stream
is produced. -/
def compactIter (cfg : Config) (input : List Record) :
    Except CompactionError (List Record) :=
  if cfg.mergeOp.isNone ∧ input.any (fun r => r.vt == .vmerge) then
    .error .mergeOperatorNotSupported
  else
    .ok (compactStream cfg input)

/-- Reader resolution over a list of visible same-key records, newest first,
with an accumulated chain of merge operands (spec §3 LazyValue/§4.C and §8
invariant 2's notion of "the value `u` resolves to"): a Put folds the
accumulated operands onto its value; a Delete resolves to the operands folded
onto the empty base (absence when no operands); a Merge accumulates; a
SingleDelete with no pending operands cancels exactly one immediately
following Put and resolution continues below (spec glossary: "cancels exactly
one matching Put"), and with pending operands it acts as the tombstone base
of the chain. -/
def resolveFrom (f : String → String → String) (acc : List String) :
    List Record → Option String
  | [] => match acc with
    | [] => none
    | _ => some (acc.foldr f "")
  | r :: rest =>
    match r.vt with
    | .vput => some (acc.foldr f r.val)
    | .vdel => match acc with
      | [] => none
      | _ => some (acc.foldr f "")
    | .vmerge => resolveFrom f (acc ++ [r.val]) rest
    | .vsdel =>
      match acc with
      | [] =>
        match rest with
        | p :: rest2 => if p.vt = .vput then resolveFrom f [] rest2
                        else resolveFrom f [] (p :: rest2)
        | [] => none
      | _ => some (acc.foldr f "")

/-- The value user key `u` resolves to at snapshot `s` when reading stream
`l` (spec §8 invariant 2): resolution over the records of `u` visible at `s`,
in stream order (newest first for a sorted stream). -/
def userResolve (cfg : Config) (s : Nat) (u : String) (l : List Record) :
    Option String :=
  resolveFrom (mergeF cfg) []
    (l.filter (fun r => decide (r.key = u) && decide (r.seq ≤ s)))

/-- Number of Put records in a list. -/
def putCount (l : List Record) : Nat :=
  (l.filter (fun r => r.vt == .vput)).length

/-- No Merge record occurs in the list. -/
def noMerge (l : List Record) : Prop := ∀ r ∈ l, r.vt ≠ .vmerge

/-- Below every SingleDelete of the list there is at most one Put (spec
glossary: a SingleDelete cancels exactly one matching Put; using it against
multiple Puts has undefined behavior). -/
def sdBelowOk : List Record → Prop
  | [] => True
  | r :: rest => (r.vt = .vsdel → putCount rest ≤ 1) ∧ sdBelowOk rest

/-- A user-key group uses SingleDelete correctly: if it contains one, the
group mixes no Merge records with it, and below every SingleDelete there is
at most one Put. -/
def sdOk (g : List Record) : Prop :=
  ((∃ r ∈ g, r.vt = .vsdel) → noMerge g) ∧ sdBelowOk g

/-- Like `sdBelowOk`, but with `k` additional Puts known to follow the list:
below every SingleDelete the number of Puts, counting the `k` later ones,
is at most one. -/
def sdBelowOkP (k : Nat) : List Record → Prop
  | [] => True
  | r :: rest => (r.vt = .vsdel → putCount rest + k ≤ 1) ∧ sdBelowOkP k rest

/-- Every user-key group of the stream uses SingleDelete correctly (the
records of each user key, in stream order). -/
def sdOkStream (l : List Record) : Prop :=
  ∀ u, sdOk (l.filter (fun r => decide (r.key = u)))

/-- Strictly sorted by InternalKey order (spec §3 input invariant: ascending
user key, descending sequence number; the newest record of each user key
first). -/
def ikSorted (l : List Record) : Prop := l.Pairwise ikLt

/-- Blob separation configuration (`blob_config_` and
`blob_large_key_ratio_lsh16_`, `compaction_iterator.h` lines 166–167):
`blob_size` is the size threshold, `ratio_lsh16` is the large-key ratio
pre-shifted left by 16 bits so the threshold comparison is an integer
compare (spec §4.D). -/
structure BlobConfig where
  blob_size : Nat
  ratio_lsh16 : Nat
  deriving DecidableEq, Repr

/-- The default-constructed blob configuration `BlobConfig{size_t(-1), 0.0}`
(`compaction_iterator.h` line 77): `blob_size` is the maximum `size_t` value
`2 ^ 64 - 1` and the ratio is zero. -/
def defaultBlobConfig : BlobConfig := ⟨2 ^ 64 - 1, 0⟩

/-- Modelled from the spec: the separation threshold of §4.D (the body using
`blob_large_key_ratio_lsh16_` is not in the sources).  A value is separated
into a blob run iff `value.size() ≥ blob_size` and
`value.size() << 16 ≥ key.size() * ratio_lsh16`, both sides of the ratio
comparison computed in 64-bit `size_t` arithmetic. -/
def shouldSeparate (bc : BlobConfig) (keyLen valLen : Nat) : Bool :=
  decide (bc.blob_size ≤ valLen) &&
  decide ((keyLen * bc.ratio_lsh16) % 2 ^ 64 ≤ (valLen * 2 ^ 16) % 2 ^ 64)

/-- Result of one subcompaction: `none` status means OK, `some e` an error
code; `outputs` are the file numbers of every data run and blob run the
subcompaction produced (spec §4.G). -/
structure SubResult where
  status : Option Nat
  outputs : List Nat
  deriving DecidableEq, Repr

/-- The installed version: the set of live files (spec §4.G Install). -/
structure Version where
  files : List Nat
  deriving DecidableEq, Repr

/-- Outcome of a whole compaction job: returned status, resulting installed
version, files added by Install, and files deleted by cleanup. -/
structure JobResult where
  status : Option Nat
  version : Version
  addedFiles : List Nat
  deletedFiles : List Nat
  deriving DecidableEq, Repr

/-- The first non-OK subcompaction status, in task order
(`CompactionJob::Run` collects per-subcompaction statuses, spec §7). -/
def firstErr : List SubResult → Option Nat
  | [] => none
  | s :: rest => match s.status with
    | some e => some e
    | none => firstErr rest

/-- All output files (data and blob runs) produced by the job's
subcompactions. -/
def jobOutputs (subs : List SubResult) : List Nat :=
  (subs.map (fun s => s.outputs)).flatten

/-- Modelled from the spec: the failure handling of `CompactionJob::Run`,
`Install` and `CleanupCompaction` (`compaction_job.h` lines 93–102, 158,
182; bodies not in the sources).  If every subcompaction is OK the job
installs all outputs into the version; otherwise installation is skipped,
`CleanupCompaction` deletes every output file the job produced, the version
is left unchanged, and the first non-OK status is returned (spec §4.G
"Failure handling"). -/
def jobRun (v : Version) (subs : List SubResult) : JobResult :=
  match firstErr subs with
  | some e => ⟨some e, v, [], jobOutputs subs⟩
  | none => ⟨none, ⟨v.files ++ jobOutputs subs⟩, jobOutputs subs, []⟩

/-- The configuration of scenario S1 of the spec and of
`ManualCompactionTest::CompactTouchesAllKeys`
(`manual_compaction_test.cc` lines 65–100): empty snapshot list, bottommost,
DestroyAll compaction filter removing exactly the records whose value is
"destroy". -/
def cfgS1 : Config :=
  ⟨[], true, none, some (fun _ v => v == "destroy"), none, fun _ => true,
    false, 0, false⟩

/-- The input stream of scenario S1 / `CompactTouchesAllKeys`. -/
def inS1 : List Record :=
  [⟨"key1", "destroy", .vput, 3⟩, ⟨"key2", "destroy", .vput, 4⟩,
   ⟨"key3", "value3", .vput, 5⟩, ⟨"key4", "destroy", .vput, 6⟩]

/-- A plain bottommost configuration with no snapshots, no filter, no merge
operator and no write-conflict snapshot (scenario S3). -/
def cfgS3 : Config :=
  ⟨[], true, none, none, none, fun _ => true, false, 0, false⟩

/-- Scenario S3's input: `SingleDelete(k)@30` then `Put(k,"v")@25`. -/
def inS3 : List Record :=
  [⟨"k", "", .vsdel, 30⟩, ⟨"k", "v", .vput, 25⟩]

/-- A configuration whose earliest write-conflict snapshot (20) lies below a
SingleDelete at sequence 30, triggering the write-conflict retention path. -/
def cfgRet : Config :=
  ⟨[], true, none, none, some 20, fun _ => true, false, 0, false⟩

/-- A non-bottommost configuration with no snapshots and no policies. -/
def cfgNB : Config :=
  ⟨[], false, none, none, none, fun _ => false, false, 0, false⟩

/-- A bottommost configuration with a single snapshot at 100 and no other
policies. -/
def cfgSnap100 : Config :=
  ⟨[100], true, none, none, none, fun _ => true, false, 0, false⟩

/-- A SingleDelete misuse input (spec glossary: undefined behaviour): one
SingleDelete above two Puts of the same key in the same snapshot bucket. -/
def inMisuse : List Record :=
  [⟨"k", "", .vsdel, 30⟩, ⟨"k", "a", .vput, 25⟩, ⟨"k", "b", .vput, 20⟩]

/-! ## Basic lemmas about the chunk decomposition -/

theorem chunksByF_norm (f : Record → β) [DecidableEq β] :
    ∀ (n m : Nat) (l : List Record), l.length ≤ n → l.length ≤ m →
      chunksByF f n l = chunksByF f m l := by
  intro n
  induction n with
  | zero =>
    intro m l hn _
    have : l = [] := List.eq_nil_of_length_eq_zero (Nat.le_zero.mp hn)
    subst this
    cases m <;> rfl
  | succ n ih =>
    intro m l hn hm
    match l with
    | [] => cases m <;> rfl
    | r :: rest =>
      match m with
      | 0 => simp at hm
      | m + 1 =>
        simp only [chunksByF]
        simp only [List.length_cons, Nat.succ_le_succ_iff] at hn hm
        have hd : (rest.dropWhile (fun x => decide (f x = f r))).length ≤ rest.length :=
          (rest.dropWhile_sublist _).length_le
        rw [ih m _ (hd.trans hn) (hd.trans hm)]

theorem chunksBy_nil (f : Record → β) [DecidableEq β] : chunksBy f [] = [] := rfl

theorem chunksBy_cons (f : Record → β) [DecidableEq β] (r : Record) (rest : List Record) :
    chunksBy f (r :: rest) =
      (r :: rest.takeWhile (fun x => f x = f r)) ::
        chunksBy f (rest.dropWhile (fun x => f x = f r)) := by
  unfold chunksBy
  simp only [List.length_cons, chunksByF]
  exact congrArg _ (chunksByF_norm f rest.length _ _
    ((rest.dropWhile_sublist _).length_le) le_rfl)

/-! ## C5: missing merge operator -/

/-- C5: for every input stream containing at least one Merge record, a
compaction iterator configured without a merge operator enters the terminal
error state `MergeOperatorNotSupported` — the run produces that error and no
records. -/
theorem c5_merge_operator_missing_errors (cfg : Config) (input : List Record)
    (h1 : cfg.mergeOp = none) (h2 : ∃ r ∈ input, r.vt = .vmerge) :
    compactIter cfg input = .error .mergeOperatorNotSupported := by
  unfold compactIter
  rw [if_pos]
  refine ⟨by simp [h1], ?_⟩
  rw [List.any_eq_true]
  obtain ⟨r, hr, hv⟩ := h2
  exact ⟨r, hr, by simp [hv]⟩

/-- Witness for C5: a single Merge record with no merge operator configured
errors out. -/
theorem c5_witness :
    compactIter cfgS3 [⟨"k", "+1", .vmerge, 5⟩] = .error .mergeOperatorNotSupported :=
  c5_merge_operator_missing_errors cfgS3 _ rfl ⟨⟨"k", "+1", .vmerge, 5⟩, by simp, rfl⟩

/-! ## C6 and C10: the value-separation threshold -/

/-- Counterexample for C6: the ratio comparison is carried out in 64-bit
`size_t` arithmetic, so it is not exact for every size: with
`ratio_lsh16 = 2^16` (ratio 1.0), `blob_size = 0`, a key of `2^47` bytes and
a value of `2^48` bytes, both claimed conditions hold
(`value.size() ≥ blob_size` and `value.size() ≥ key.size() · ratio`), yet the
shifted product wraps modulo `2^64` and the value is not separated. -/
theorem c6_counterexample :
    shouldSeparate ⟨0, 2 ^ 16⟩ (2 ^ 47) (2 ^ 48) = false ∧
      ((0 : Nat) ≤ 2 ^ 48 ∧ (2 ^ 47 : ℚ) * ((2 ^ 16 : ℚ) / 2 ^ 16) ≤ (2 ^ 48 : ℚ)) :=
  ⟨by decide, by norm_num, by norm_num⟩

/-- C6 (amended): a Put's value is separated iff `value.size() ≥ blob_size`
and `value.size() · 2^16 ≥ key.size() · ratio_lsh16`, the latter computed in
64-bit arithmetic; whenever the products do not overflow
(`value.size() < 2^48` and `key.size() · ratio_lsh16 < 2^64`) this is exactly
the claimed conjunction "value.size() ≥ blob_size and
value.size() ≥ key.size() · blob_large_key_ratio" with the ratio read as
`ratio_lsh16 / 2^16`. -/
theorem c6_separation_threshold (bs r kl vl : Nat)
    (hv : vl < 2 ^ 48) (hk : kl * r < 2 ^ 64) :
    shouldSeparate ⟨bs, r⟩ kl vl = true ↔
      (bs ≤ vl ∧ (kl : ℚ) * ((r : ℚ) / 2 ^ 16) ≤ (vl : ℚ)) := by
  unfold shouldSeparate
  have h1 : (kl * r) % 2 ^ 64 = kl * r := Nat.mod_eq_of_lt hk
  have h2 : (vl * 2 ^ 16) % 2 ^ 64 = vl * 2 ^ 16 := by
    apply Nat.mod_eq_of_lt
    calc vl * 2 ^ 16 < 2 ^ 48 * 2 ^ 16 := by
          exact (Nat.mul_lt_mul_right (by norm_num)).mpr hv
      _ = 2 ^ 64 := by norm_num
  simp only [h1, h2, Bool.and_eq_true, decide_eq_true_eq]
  have key : (kl * r ≤ vl * 2 ^ 16) ↔ ((kl : ℚ) * ((r : ℚ) / 2 ^ 16) ≤ (vl : ℚ)) := by
    rw [← mul_div_assoc, div_le_iff₀ (by norm_num : (0 : ℚ) < 2 ^ 16)]
    constructor
    · intro h
      have : ((kl * r : Nat) : ℚ) ≤ ((vl * 2 ^ 16 : Nat) : ℚ) := by exact_mod_cast h
      push_cast at this
      convert this using 2
    · intro h
      have : ((kl : ℚ) * r ≤ (vl : ℚ) * 2 ^ 16) := by
        convert h using 2
      exact_mod_cast this
  rw [key]

/-- Witness for C6: scenario S5 — a 4 KiB value under
`blob_config = (blob_size 1024, ratio 0)` with a 1-byte key is separated. -/
theorem c6_witness : shouldSeparate ⟨1024, 0⟩ 1 4096 = true :=
  (c6_separation_threshold 1024 0 1 4096 (by norm_num) (by norm_num)).mpr
    ⟨by norm_num, by norm_num⟩

/-- Counterexample for C10: with the default configuration
`BlobConfig(size_t(-1), 0.0)` the threshold `value.size() ≥ blob_size` is
still satisfiable at the extreme `size_t` value — a value of `2^64 − 1` bytes
meets it, so the predicate is not unsatisfiable for every value the size
type can express. -/
theorem c10_counterexample : shouldSeparate defaultBlobConfig 1 (2 ^ 64 - 1) = true := by
  decide

/-- C10 (amended): under the default-constructed
`BlobConfig(size_t(-1), 0.0)` no value whose size is below the maximum
`size_t` value `2^64 − 1` — i.e. every realizable value — satisfies the
separation threshold, so a compaction iterator constructed without an
explicit blob configuration never separates such a Put's value. -/
theorem c10_default_blob_never_separates (kl vl : Nat) (h : vl < 2 ^ 64 - 1) :
    shouldSeparate defaultBlobConfig kl vl = false := by
  unfold shouldSeparate defaultBlobConfig
  have hle : ¬ (2 ^ 64 - 1 ≤ vl) := by omega
  simp only [decide_eq_false hle, Bool.false_and]

/-- Witness for C10: a 42-byte value (any realizable size) is never
separated by the default blob configuration. -/
theorem c10_witness : shouldSeparate defaultBlobConfig 1 42 = false :=
  c10_default_blob_never_separates 1 42 (by norm_num)

/-! ## C7: the DestroyAll filter scenario -/

/-- C7: on inputs `Put(key1,"destroy")@3`, `Put(key2,"destroy")@4`,
`Put(key3,"value3")@5`, `Put(key4,"destroy")@6`, empty snapshot list,
bottommost level, with the DestroyAll filter (Remove iff value = "destroy"),
the compaction emits exactly `Put(key3,"value3")@0` with its sequence
zeroed — the behaviour `ManualCompactionTest::CompactTouchesAllKeys`
asserts. -/
theorem c7_destroyall_scenario :
    compactIter cfgS1 inS1 = .ok [⟨"key3", "value3", .vput, 0⟩] := by rfl

/-! ## C8: job-level atomicity on failure -/

theorem firstErr_isSome_of_exists {subs : List SubResult}
    (h : ∃ s ∈ subs, s.status ≠ none) : (firstErr subs).isSome = true := by
  induction subs with
  | nil => simp at h
  | cons s rest ih =>
    unfold firstErr
    cases hs : s.status with
    | some e => rfl
    | none =>
      obtain ⟨w, hw, hne⟩ := h
      rcases List.mem_cons.mp hw with hEq | hMem
      · subst hEq; exact absurd hs hne
      · exact ih ⟨w, hMem, hne⟩

/-- C8: if any subcompaction finishes with a non-OK status, the job does not
install — the version is unchanged, no file is added, every output file the
job produced (data and blob runs) is deleted, and the first non-OK status is
returned. -/
theorem c8_job_failure_atomicity (v : Version) (subs : List SubResult)
    (h : ∃ s ∈ subs, s.status ≠ none) :
    (jobRun v subs).version = v ∧ (jobRun v subs).addedFiles = [] ∧
    (jobRun v subs).deletedFiles = jobOutputs subs ∧
    (jobRun v subs).status = firstErr subs ∧ (firstErr subs).isSome = true := by
  have hs := firstErr_isSome_of_exists h
  cases hfe : firstErr subs with
  | none => rw [hfe] at hs; simp at hs
  | some e => simp [jobRun, hfe]

/-- Witness for C8: a two-subcompaction job whose second task fails keeps the
version, deletes both tasks' outputs, and returns the failure. -/
theorem c8_witness :
    (jobRun ⟨[1]⟩ [⟨none, [10]⟩, ⟨some 7, [11, 12]⟩]).version = ⟨[1]⟩ ∧
    (jobRun ⟨[1]⟩ [⟨none, [10]⟩, ⟨some 7, [11, 12]⟩]).addedFiles = [] ∧
    (jobRun ⟨[1]⟩ [⟨none, [10]⟩, ⟨some 7, [11, 12]⟩]).deletedFiles =
      jobOutputs [⟨none, [10]⟩, ⟨some 7, [11, 12]⟩] ∧
    (jobRun ⟨[1]⟩ [⟨none, [10]⟩, ⟨some 7, [11, 12]⟩]).status =
      firstErr [⟨none, [10]⟩, ⟨some 7, [11, 12]⟩] ∧
    (firstErr [⟨none, [10]⟩, ⟨some 7, [11, 12]⟩]).isSome = true :=
  c8_job_failure_atomicity ⟨[1]⟩ _ ⟨⟨some 7, [11, 12]⟩, by simp, by simp⟩

/-! ## Chunk and run membership lemmas -/

theorem chunksByF_flatten (f : Record → β) [DecidableEq β] :
    ∀ (n : Nat) (l : List Record), l.length ≤ n → (chunksByF f n l).flatten = l := by
  intro n
  induction n with
  | zero =>
    intro l hn
    have : l = [] := List.eq_nil_of_length_eq_zero (Nat.le_zero.mp hn)
    subst this; rfl
  | succ n ih =>
    intro l hn
    match l with
    | [] => rfl
    | r :: rest =>
      simp only [chunksByF, List.flatten_cons, List.cons_append]
      simp only [List.length_cons, Nat.succ_le_succ_iff] at hn
      rw [ih _ (((rest.dropWhile_sublist _).length_le).trans hn)]
      rw [List.takeWhile_append_dropWhile]

theorem chunksBy_flatten (f : Record → β) [DecidableEq β] (l : List Record) :
    (chunksBy f l).flatten = l :=
  chunksByF_flatten f l.length l le_rfl

theorem mem_of_mem_chunksBy {f : Record → β} [DecidableEq β] {l : List Record}
    {c : List Record} {x : Record} (hc : c ∈ chunksBy f l) (hx : x ∈ c) : x ∈ l := by
  rw [← chunksBy_flatten f l]
  exact List.mem_flatten.mpr ⟨c, hc, hx⟩

/-- Every record a run emits carries the user key and sequence number of a
record of that run (the collapsed-merge Put takes the newest operand's key
and sequence). -/
theorem runOut_source (cfg : Config) (run : List Record) :
    ∀ x ∈ runOut cfg run, ∃ r ∈ run, r.key = x.key ∧ r.seq = x.seq := by
  intro x
  match run with
  | [] => intro hx; simp [runOut] at hx
  | ⟨rk, rv, rt, rq⟩ :: rest =>
    cases rt with
    | vput =>
      simp only [runOut]
      intro hx
      split at hx
      · simp at hx
      · simp only [List.mem_singleton] at hx
        subst hx
        exact ⟨_, List.mem_cons_self _ _, rfl, rfl⟩
    | vdel =>
      simp only [runOut]
      intro hx
      split at hx
      · simp at hx
      · simp only [List.mem_singleton] at hx
        subst hx
        exact ⟨_, List.mem_cons_self _ _, rfl, rfl⟩
    | vsdel =>
      intro hx
      cases hre : rest with
      | nil =>
        rw [hre] at hx
        replace hx : x ∈ [Record.mk rk rv .vsdel rq] := hx
        simp only [List.mem_singleton] at hx
        subst hx
        exact ⟨_, List.mem_cons_self _ _, rfl, rfl⟩
      | cons p tail =>
        rw [hre] at hx
        replace hx : x ∈ (if p.vt = VType.vput then
            (match cfg.ewcs with
              | some w => if w < rq then [Record.mk rk rv .vsdel rq, p] else []
              | none => ([] : List Record))
            else [Record.mk rk rv .vsdel rq]) := hx
        by_cases hp : p.vt = VType.vput
        · rw [if_pos hp] at hx
          cases hew : cfg.ewcs with
          | none => rw [hew] at hx; simp at hx
          | some w =>
            rw [hew] at hx
            replace hx : x ∈ (if w < rq then [Record.mk rk rv .vsdel rq, p] else []) := hx
            by_cases hlt : w < rq
            · rw [if_pos hlt] at hx
              rcases List.mem_pair.mp hx with h | h
              · subst h; exact ⟨_, List.mem_cons_self _ _, rfl, rfl⟩
              · refine ⟨p, List.mem_cons_of_mem _
                  (by subst hre; exact List.mem_cons_self _ _), ?_, ?_⟩ <;> rw [h]
            · rw [if_neg hlt] at hx; simp at hx
        · rw [if_neg hp] at hx
          simp only [List.mem_singleton] at hx
          subst hx
          exact ⟨_, List.mem_cons_self _ _, rfl, rfl⟩
    | vmerge =>
      simp only [runOut]
      intro hx
      rcases hdw : rest.dropWhile (fun x => x.vt = VType.vmerge) with _ | ⟨a, tail⟩
      · rw [hdw] at hx
        replace hx : x ∈ (Record.mk rk rv .vmerge rq ::
            rest.takeWhile (fun x => x.vt = VType.vmerge)) := hx
        rcases List.mem_cons.mp hx with h0 | h0
        · subst h0; exact ⟨_, List.mem_cons_self _ _, rfl, rfl⟩
        · exact ⟨x, List.mem_cons_of_mem _ ((rest.takeWhile_sublist _).mem h0), rfl, rfl⟩
      · rw [hdw] at hx
        replace hx : x ∈ (if a.vt = VType.vput then
            [Record.mk rk (mergeFold cfg ((Record.mk rk rv .vmerge rq ::
              rest.takeWhile (fun x => x.vt = VType.vmerge)).map (fun x => x.val)) a.val)
              VType.vput rq]
            else (Record.mk rk rv .vmerge rq ::
              rest.takeWhile (fun x => x.vt = VType.vmerge)) ++ [a]) := hx
        have ha : a ∈ rest := (rest.dropWhile_sublist _).mem
          (by rw [hdw]; exact List.mem_cons_self a tail)
        by_cases hp : a.vt = VType.vput
        · rw [if_pos hp] at hx
          simp only [List.mem_singleton] at hx
          subst hx
          exact ⟨_, List.mem_cons_self _ _, rfl, rfl⟩
        · rw [if_neg hp] at hx
          rcases List.mem_append.mp hx with h | h
          · rcases List.mem_cons.mp h with h0 | h0
            · subst h0; exact ⟨_, List.mem_cons_self _ _, rfl, rfl⟩
            · exact ⟨x, List.mem_cons_of_mem _ ((rest.takeWhile_sublist _).mem h0), rfl, rfl⟩
          · simp only [List.mem_singleton] at h
            refine ⟨a, List.mem_cons_of_mem _ ha, ?_, ?_⟩ <;> rw [h]

theorem zeroRec_key (cfg : Config) (x : Record) : (zeroRec cfg x).key = x.key := by
  unfold zeroRec; split <;> rfl

theorem zeroRec_seq (cfg : Config) (x : Record) :
    (zeroRec cfg x).seq = x.seq ∨ (zeroRec cfg x).seq = 0 := by
  unfold zeroRec; split
  · exact Or.inr rfl
  · exact Or.inl rfl

/-! ## Ordering infrastructure for the output stream -/

theorem chunksBy_induction (f : Record → β) [DecidableEq β] (motive : List Record → Prop)
    (nil : motive [])
    (cons : ∀ r rest, motive (rest.dropWhile (fun x => f x = f r)) → motive (r :: rest)) :
    ∀ l, motive l := by
  have aux : ∀ (n : Nat) (l : List Record), l.length ≤ n → motive l := by
    intro n
    induction n with
    | zero =>
      intro l hn
      have : l = [] := List.eq_nil_of_length_eq_zero (Nat.le_zero.mp hn)
      subst this; exact nil
    | succ n ih =>
      intro l hn
      match l with
      | [] => exact nil
      | r :: rest =>
        simp only [List.length_cons, Nat.succ_le_succ_iff] at hn
        exact cons r rest (ih _ (((rest.dropWhile_sublist _).length_le).trans hn))
  exact fun l => aux l.length l le_rfl

theorem chunksBy_sublist {f : Record → β} [DecidableEq β] {l : List Record} :
    ∀ c ∈ chunksBy f l, c.Sublist l := by
  induction l using chunksBy_induction f with
  | nil => intro c hc; rw [chunksBy_nil] at hc; simp at hc
  | cons r rest ih =>
    intro c hc
    rw [chunksBy_cons] at hc
    rcases List.mem_cons.mp hc with h | h
    · subst h
      exact (rest.takeWhile_sublist _).cons₂ r
    · exact ((ih c h).trans (rest.dropWhile_sublist _)).trans (List.sublist_cons_self r rest)

theorem mem_head_chunk_eq {f : Record → β} [DecidableEq β] {r x : Record}
    {rest : List Record} (hx : x ∈ r :: rest.takeWhile (fun y => f y = f r)) :
    f x = f r := by
  rcases List.mem_cons.mp hx with h | h
  · rw [h]
  · simpa using List.mem_takeWhile_imp h

/-- In a strictly InternalKey-sorted stream, every record after the maximal
leading run of the head's user key has a strictly greater user key. -/
theorem sorted_dropWhile_key_lt {r : Record} {rest : List Record}
    (hs : (r :: rest).Pairwise ikLt) :
    ∀ y ∈ rest.dropWhile (fun x => x.key = r.key), r.key.data < y.key.data := by
  induction rest with
  | nil => intro y hy; simp at hy
  | cons z rest' ih =>
    intro y hy
    by_cases hz : z.key = r.key
    · rw [List.dropWhile_cons, if_pos (by simpa using hz)] at hy
      have hs' : (r :: rest').Pairwise ikLt :=
        hs.sublist ((List.sublist_cons_self z rest').cons₂ r)
      exact ih hs' y hy
    · rw [List.dropWhile_cons, if_neg (by simpa using hz)] at hy
      have hrz : ikLt r z := (List.pairwise_cons.mp hs).1 z (List.mem_cons_self z rest')
      have hrzk : r.key.data < z.key.data := by
        rcases hrz with h | h
        · exact h
        · exact absurd h.1.symm hz
      rcases List.mem_cons.mp hy with h | h
      · rw [h]; exact hrzk
      · have hzy : ikLt z y :=
          (List.pairwise_cons.mp (hs.sublist (List.sublist_cons_self r _))).1 y h
        rcases hzy with h' | h'
        · exact hrzk.trans h'
        · rw [← h'.1]; exact hrzk

/-- The user-key chunks of a strictly sorted stream are strictly increasing:
every record of an earlier chunk has a smaller user key than every record of
a later chunk. -/
theorem chunksBy_key_cross {l : List Record} (hs : l.Pairwise ikLt) :
    (chunksBy (fun r => r.key) l).Pairwise
      (fun c1 c2 => ∀ x ∈ c1, ∀ y ∈ c2, x.key.data < y.key.data) := by
  induction l using chunksBy_induction (fun r => r.key) with
  | nil => rw [chunksBy_nil]; exact List.Pairwise.nil
  | cons r rest ih =>
    rw [chunksBy_cons]
    have hs' : (rest.dropWhile (fun x => x.key = r.key)).Pairwise ikLt :=
      hs.sublist ((rest.dropWhile_sublist _).trans (List.sublist_cons_self r rest))
    refine List.pairwise_cons.mpr ⟨?_, ih hs'⟩
    intro c hc x hx y hy
    have hxr : x.key = r.key := mem_head_chunk_eq hx
    have hyd : y ∈ rest.dropWhile (fun x => x.key = r.key) :=
      mem_of_mem_chunksBy hc hy
    rw [hxr]
    exact sorted_dropWhile_key_lt hs y hyd

theorem chunk_const {f : Record → β} [DecidableEq β] {l c : List Record}
    (hc : c ∈ chunksBy f l) : ∀ x ∈ c, ∀ y ∈ c, f x = f y := by
  induction l using chunksBy_induction f generalizing c with
  | nil => rw [chunksBy_nil] at hc; simp at hc
  | cons r rest ih =>
    rw [chunksBy_cons] at hc
    rcases List.mem_cons.mp hc with h | h
    · subst h
      intro x hx y hy
      rw [mem_head_chunk_eq hx, mem_head_chunk_eq hy]
    · exact ih h

theorem chunk_desc_of_sorted {l : List Record} (hs : l.Pairwise ikLt)
    {c : List Record} (hc : c ∈ chunksBy (fun r => r.key) l) :
    c.Pairwise (fun a b => b.seq < a.seq) := by
  have hcs : c.Pairwise ikLt := hs.sublist (chunksBy_sublist c hc)
  have hconst := chunk_const hc
  refine hcs.imp_of_mem ?_
  intro a b ha hb hab
  rcases hab with h | h
  · exact absurd (congrArg String.data (hconst a ha b hb)) (ne_of_lt h)
  · exact h.2

theorem zeroRec_nonput {cfg : Config} {r : Record} (h : r.vt ≠ .vput) :
    zeroRec cfg r = r := by
  unfold zeroRec
  rw [if_neg]
  intro hc
  exact h hc.1

theorem map_zeroRec_nonput {cfg : Config} {l : List Record}
    (h : ∀ x ∈ l, x.vt ≠ .vput) : l.map (zeroRec cfg) = l := by
  induction l with
  | nil => rfl
  | cons a l ih =>
    simp only [List.map_cons]
    rw [zeroRec_nonput (h a (List.mem_cons_self a l)),
      ih (fun x hx => h x (List.mem_cons_of_mem a hx))]

theorem pairwise_cons_takeWhile {R : Record → Record → Prop} {r : Record}
    {rest : List Record} (p : Record → Bool) (hs : (r :: rest).Pairwise R) :
    (r :: rest.takeWhile p).Pairwise R :=
  hs.sublist ((rest.takeWhile_sublist p).cons₂ r)

theorem rel_takeWhile_dropWhile_head {R : Record → Record → Prop} {r a : Record}
    {rest tail : List Record} {p : Record → Bool} (hs : (r :: rest).Pairwise R)
    (hdw : rest.dropWhile p = a :: tail) :
    ∀ o ∈ r :: rest.takeWhile p, R o a := by
  intro o ho
  have hrest : rest = rest.takeWhile p ++ a :: tail := by
    rw [← hdw, List.takeWhile_append_dropWhile]
  rcases List.mem_cons.mp ho with h | h
  · subst h
    refine (List.pairwise_cons.mp hs).1 a ?_
    rw [hrest]
    exact List.mem_append.mpr (Or.inr (List.mem_cons_self a tail))
  · have hrp : rest.Pairwise R := (List.pairwise_cons.mp hs).2
    rw [hrest] at hrp
    exact (List.pairwise_append.mp hrp).2.2 o h a (List.mem_cons_self a tail)

/-- The records a run emits are in strictly descending sequence order when
the run is. -/
theorem runOut_desc {cfg : Config} {run : List Record}
    (hs : run.Pairwise (fun a b => b.seq < a.seq)) :
    (runOut cfg run).Pairwise (fun a b => b.seq < a.seq) := by
  match run with
  | [] => exact List.Pairwise.nil
  | ⟨rk, rv, rt, rq⟩ :: rest =>
    cases rt with
    | vput =>
      simp only [runOut]
      split
      · exact List.Pairwise.nil
      · exact List.pairwise_singleton _ _
    | vdel =>
      simp only [runOut]
      split
      · exact List.Pairwise.nil
      · exact List.pairwise_singleton _ _
    | vsdel =>
      cases hre : rest with
      | nil =>
        show ([Record.mk rk rv .vsdel rq]).Pairwise _
        exact List.pairwise_singleton _ _
      | cons p tail =>
        rw [hre] at hs
        show ((if p.vt = VType.vput then
            (match cfg.ewcs with
              | some w => if w < rq then [Record.mk rk rv .vsdel rq, p] else []
              | none => ([] : List Record))
            else [Record.mk rk rv .vsdel rq]) : List Record).Pairwise _
        by_cases hp : p.vt = VType.vput
        · rw [if_pos hp]
          cases cfg.ewcs with
          | none => exact List.Pairwise.nil
          | some w =>
            show ((if w < rq then [Record.mk rk rv .vsdel rq, p] else
              ([] : List Record)) : List Record).Pairwise _
            by_cases hlt : w < rq
            · rw [if_pos hlt]
              refine List.pairwise_cons.mpr ⟨?_, List.pairwise_singleton _ _⟩
              intro y hy
              simp only [List.mem_singleton] at hy
              subst hy
              exact (List.pairwise_cons.mp hs).1 y (List.mem_cons_self y tail)
            · rw [if_neg hlt]; exact List.Pairwise.nil
        · rw [if_neg hp]
          exact List.pairwise_singleton _ _
    | vmerge =>
      simp only [runOut]
      rcases hdw : rest.dropWhile (fun x => x.vt = VType.vmerge) with _ | ⟨a, tail⟩
      · rw [hdw]
        show ((Record.mk rk rv .vmerge rq ::
            rest.takeWhile (fun x => x.vt = VType.vmerge)) : List Record).Pairwise _
        exact pairwise_cons_takeWhile _ hs
      · rw [hdw]
        show ((if a.vt = VType.vput then
            [Record.mk rk (mergeFold cfg ((Record.mk rk rv .vmerge rq ::
              rest.takeWhile (fun x => x.vt = VType.vmerge)).map (fun x => x.val)) a.val)
              VType.vput rq]
            else (Record.mk rk rv .vmerge rq ::
              rest.takeWhile (fun x => x.vt = VType.vmerge)) ++ [a]) : List Record).Pairwise _
        by_cases hp : a.vt = VType.vput
        · rw [if_pos hp]
          exact List.pairwise_singleton _ _
        · rw [if_neg hp]
          refine List.pairwise_append.mpr
            ⟨pairwise_cons_takeWhile _ hs, List.pairwise_singleton _ _, ?_⟩
          intro o ho b hb
          simp only [List.mem_singleton] at hb
          subst hb
          exact rel_takeWhile_dropWhile_head hs hdw o ho

/-- Zeroing sequence numbers after the record policy preserves strictly
descending sequence order within a run's output: the only multi-record
outputs either contain no Put (zeroing fixes them pointwise) or are the
write-conflict retention pair, whose SingleDelete sits strictly above the
write-conflict snapshot and hence above zero. -/
theorem runOut_desc_zeroed {cfg : Config} {run : List Record}
    (hs : run.Pairwise (fun a b => b.seq < a.seq)) :
    ((runOut cfg run).map (zeroRec cfg)).Pairwise (fun a b => b.seq < a.seq) := by
  match run with
  | [] => exact List.Pairwise.nil
  | ⟨rk, rv, rt, rq⟩ :: rest =>
    cases rt with
    | vput =>
      simp only [runOut]
      split
      · exact List.Pairwise.nil
      · exact List.pairwise_singleton _ _
    | vdel =>
      simp only [runOut]
      split
      · exact List.Pairwise.nil
      · exact List.pairwise_singleton _ _
    | vsdel =>
      cases hre : rest with
      | nil =>
        show (([Record.mk rk rv .vsdel rq]).map (zeroRec cfg)).Pairwise _
        exact List.pairwise_singleton _ _
      | cons p tail =>
        show ((((if p.vt = VType.vput then
            (match cfg.ewcs with
              | some w => if w < rq then [Record.mk rk rv .vsdel rq, p] else []
              | none => ([] : List Record))
            else [Record.mk rk rv .vsdel rq]) : List Record)).map (zeroRec cfg)).Pairwise _
        by_cases hp : p.vt = VType.vput
        · rw [if_pos hp]
          cases cfg.ewcs with
          | none => exact List.Pairwise.nil
          | some w =>
            show (((if w < rq then [Record.mk rk rv .vsdel rq, p] else
              ([] : List Record)) : List Record).map (zeroRec cfg)).Pairwise _
            by_cases hlt : w < rq
            · rw [if_pos hlt]
              simp only [List.map_cons, List.map_nil]
              rw [zeroRec_nonput (by simp)]
              refine List.pairwise_cons.mpr ⟨?_, List.pairwise_singleton _ _⟩
              intro y hy
              simp only [List.mem_singleton] at hy
              subst hy
              rcases zeroRec_seq cfg p with h | h
              · rw [h]
                rw [hre] at hs
                exact (List.pairwise_cons.mp hs).1 p (List.mem_cons_self p tail)
              · rw [h]
                exact Nat.lt_of_le_of_lt (Nat.zero_le w) hlt
            · rw [if_neg hlt]; exact List.Pairwise.nil
        · rw [if_neg hp]
          exact List.pairwise_singleton _ _
    | vmerge =>
      have hops : ∀ x ∈ (Record.mk rk rv .vmerge rq ::
          rest.takeWhile (fun x => x.vt = VType.vmerge)), x.vt ≠ VType.vput := by
        intro x hx
        rcases List.mem_cons.mp hx with h | h
        · subst h; intro hcc; cases hcc
        · have hxw := List.mem_takeWhile_imp h
          simp only [decide_eq_true_eq] at hxw
          rw [hxw]; intro hcc; cases hcc
      simp only [runOut]
      rcases hdw : rest.dropWhile (fun x => x.vt = VType.vmerge) with _ | ⟨a, tail⟩
      · rw [hdw]
        show (((Record.mk rk rv .vmerge rq ::
            rest.takeWhile (fun x => x.vt = VType.vmerge)) : List Record).map
            (zeroRec cfg)).Pairwise _
        rw [map_zeroRec_nonput hops]
        exact pairwise_cons_takeWhile _ hs
      · rw [hdw]
        show ((((if a.vt = VType.vput then
            [Record.mk rk (mergeFold cfg ((Record.mk rk rv .vmerge rq ::
              rest.takeWhile (fun x => x.vt = VType.vmerge)).map (fun x => x.val)) a.val)
              VType.vput rq]
            else (Record.mk rk rv .vmerge rq ::
              rest.takeWhile (fun x => x.vt = VType.vmerge)) ++ [a]) : List Record)).map
            (zeroRec cfg)).Pairwise _
        by_cases hp : a.vt = VType.vput
        · rw [if_pos hp]
          exact List.pairwise_singleton _ _
        · rw [if_neg hp]
          rw [map_zeroRec_nonput (by
            intro x hx
            rcases List.mem_append.mp hx with h | h
            · exact hops x h
            · simp only [List.mem_singleton] at h; subst h; exact hp)]
          refine List.pairwise_append.mpr
            ⟨pairwise_cons_takeWhile _ hs, List.pairwise_singleton _ _, ?_⟩
          intro o ho b hb
          simp only [List.mem_singleton] at hb
          subst hb
          exact rel_takeWhile_dropWhile_head hs hdw o ho

/-- With an empty snapshot list every record is in the above-all bucket, so
a user-key group forms a single snapshot-bucket run. -/
theorem chunksBy_bucket_nil_snapshots (cfg : Config) (hsn : cfg.snapshots = [])
    (r : Record) (rest : List Record) :
    chunksBy (fun x => bucket cfg.snapshots x.seq) (r :: rest) = [r :: rest] := by
  rw [chunksBy_cons]
  have hall : ∀ x ∈ rest,
      (fun x => decide (bucket cfg.snapshots x.seq = bucket cfg.snapshots r.seq)) x = true := by
    intro x _
    simp [hsn, bucket]
  rw [List.takeWhile_eq_self_iff.mpr hall, List.dropWhile_eq_nil_iff.mpr hall, chunksBy_nil]

/-- A user-key group's output is in strictly descending sequence order when
the group is. -/
theorem outGroup_desc (cfg : Config) {g : List Record}
    (hg : g.Pairwise (fun a b => b.seq < a.seq)) :
    (outGroup cfg g).Pairwise (fun a b => b.seq < a.seq) := by
  have hflat : (chunksBy (fun r => bucket cfg.snapshots r.seq) g).flatten = g :=
    chunksBy_flatten _ g
  have hgg : ((chunksBy (fun r => bucket cfg.snapshots r.seq) g).flatten).Pairwise
      (fun a b => b.seq < a.seq) := by rw [hflat]; exact hg
  have hdecomp := List.pairwise_flatten.mp hgg
  have hcore : (((chunksBy (fun r => bucket cfg.snapshots r.seq) g).map
      (runOut cfg)).flatten).Pairwise (fun a b => b.seq < a.seq) := by
    rw [List.pairwise_flatten]
    constructor
    · intro l hl
      obtain ⟨run, hrun, rfl⟩ := List.mem_map.mp hl
      exact runOut_desc (hdecomp.1 run hrun)
    · rw [List.pairwise_map]
      refine hdecomp.2.imp_of_mem ?_
      intro c1 c2 _ _ hcross x hx y hy
      obtain ⟨r1, hr1, _, hs1⟩ := runOut_source cfg c1 x hx
      obtain ⟨r2, hr2, _, hs2⟩ := runOut_source cfg c2 y hy
      rw [← hs1, ← hs2]
      exact hcross r1 hr1 r2 hr2
  simp only [outGroup, coreOut]
  split
  case _ hcond =>
    cases g with
    | nil =>
      rw [chunksBy_nil]
      exact List.Pairwise.nil
    | cons r rest =>
      rw [chunksBy_bucket_nil_snapshots cfg hcond.2.1 r rest]
      simp only [List.map_cons, List.map_nil, List.flatten_cons, List.flatten_nil,
        List.append_nil]
      exact runOut_desc_zeroed hg
  case _ => exact hcore

/-- Every record a user-key group emits carries a user key occurring in the
group. -/
theorem outGroup_key_source (cfg : Config) (g : List Record) :
    ∀ x ∈ outGroup cfg g, ∃ r' ∈ g, r'.key = x.key := by
  intro x hx
  have core : ∀ y ∈ ((chunksBy (fun r => bucket cfg.snapshots r.seq) g).map
      (runOut cfg)).flatten, ∃ r' ∈ g, r'.key = y.key := by
    intro y hy
    obtain ⟨ro, hro, hyro⟩ := List.mem_flatten.mp hy
    obtain ⟨run, hrun, hruno⟩ := List.mem_map.mp hro
    subst hruno
    obtain ⟨r', hr', hk, _⟩ := runOut_source cfg run y hyro
    exact ⟨r', mem_of_mem_chunksBy hrun hr', hk⟩
  simp only [outGroup] at hx
  split at hx
  · obtain ⟨y, hy, hyz⟩ := List.mem_map.mp hx
    subst hyz
    obtain ⟨r', hr', hk⟩ := core y hy
    exact ⟨r', hr', by rw [zeroRec_key]; exact hk⟩
  · exact core x hx

/-! ## C2: output is strictly increasing in InternalKey order -/

/-- The record stream emitted for a strictly InternalKey-sorted input is
itself strictly InternalKey-sorted. -/
theorem compactStream_sorted (cfg : Config) (input : List Record)
    (hs : ikSorted input) : ikSorted (compactStream cfg input) := by
  unfold compactStream ikSorted
  rw [List.pairwise_flatten]
  constructor
  · intro l hl
    obtain ⟨g, hg, rfl⟩ := List.mem_map.mp hl
    have hdesc := outGroup_desc cfg (chunk_desc_of_sorted hs hg)
    have hkeys := chunk_const hg
    refine hdesc.imp_of_mem ?_
    intro a b ha hb hab
    right
    refine ⟨?_, hab⟩
    obtain ⟨ra, hra, hka⟩ := outGroup_key_source cfg g a ha
    obtain ⟨rb, hrb, hkb⟩ := outGroup_key_source cfg g b hb
    rw [← hka, ← hkb]
    exact hkeys ra hra rb hrb
  · rw [List.pairwise_map]
    refine (chunksBy_key_cross hs).imp_of_mem ?_
    intro g1 g2 _ _ hcross x hx y hy
    obtain ⟨r1, hr1, hk1⟩ := outGroup_key_source cfg g1 x hx
    obtain ⟨r2, hr2, hk2⟩ := outGroup_key_source cfg g2 y hy
    left
    rw [← hk1, ← hk2]
    exact hcross r1 hr1 r2 hr2

/-- C2: for every input stream strictly sorted by InternalKey order, the
record stream the compaction iterator emits is strictly increasing in
InternalKey order (ascending user key, descending sequence number within a
user key). -/
theorem c2_output_strictly_sorted (cfg : Config) (input : List Record)
    (hs : ikSorted input) : ikSorted (compactStream cfg input) :=
  compactStream_sorted cfg input hs

/-- Witness for C2: the DestroyAll scenario input is strictly sorted and so
is the corresponding output stream. -/
theorem c2_witness : ikSorted inS1 ∧ ikSorted (compactStream cfgS1 inS1) :=
  ⟨by unfold ikSorted inS1; decide, c2_output_strictly_sorted cfgS1 inS1
    (by unfold ikSorted inS1; decide)⟩

/-- Counterexample for C3: a record that already carries sequence number
zero in the input (produced by an earlier bottommost compaction) is emitted
with sequence zero by a compaction whose output level is not bottommost, so
an emitted zero does not imply the bottommost condition of the claim. -/
theorem c3_counterexample :
    compactIter cfgNB [⟨"k", "v", .vput, 0⟩] = .ok [⟨"k", "v", .vput, 0⟩] ∧
      cfgNB.bottommost = false := ⟨by rfl, rfl⟩

/-- C3 (amended): every record the compaction emits carries the sequence
number of an input record of the same user key, or carries sequence zero
with the zeroing having happened only at a bottommost output level for a
record whose sequence was above every snapshot in the snapshot list. -/
theorem c3_seq_preserved_or_zero (cfg : Config) (input : List Record) :
    ∀ r ∈ compactStream cfg input, ∃ r' ∈ input, r'.key = r.key ∧
      (r.seq = r'.seq ∨
        (r.seq = 0 ∧ cfg.bottommost = true ∧ ∀ s ∈ cfg.snapshots, s < r'.seq)) := by
  intro r hr
  unfold compactStream at hr
  obtain ⟨out, hout, hrout⟩ := List.mem_flatten.mp hr
  obtain ⟨g, hg, hgout⟩ := List.mem_map.mp hout
  subst hgout
  simp only [outGroup] at hrout
  have core : ∀ x ∈ ((chunksBy (fun r => bucket cfg.snapshots r.seq) g).map
      (runOut cfg)).flatten, ∃ r' ∈ input, r'.key = x.key ∧ r'.seq = x.seq := by
    intro x hx
    obtain ⟨ro, hro, hxro⟩ := List.mem_flatten.mp hx
    obtain ⟨run, hrun, hruno⟩ := List.mem_map.mp hro
    subst hruno
    obtain ⟨r', hr', hk, hs⟩ := runOut_source cfg run x hxro
    exact ⟨r', mem_of_mem_chunksBy hg (mem_of_mem_chunksBy hrun hr'), hk, hs⟩
  split at hrout
  case _ hcond =>
    obtain ⟨x, hx, hxz⟩ := List.mem_map.mp hrout
    subst hxz
    obtain ⟨r', hr', hk, hs⟩ := core x hx
    refine ⟨r', hr', by rw [zeroRec_key]; exact hk, ?_⟩
    rcases zeroRec_seq cfg x with h | h
    · exact Or.inl (by rw [h, ← hs])
    · exact Or.inr ⟨h, hcond.1, by rw [hcond.2.1]; intro s hs'; simp at hs'⟩
  case _ =>
    obtain ⟨r', hr', hk, hs⟩ := core r hrout
    exact ⟨r', hr', hk, Or.inl hs.symm⟩

/-- Witness for C3: the non-bottommost pass-through of a Put already at
sequence zero is emitted, and the amended property holds for it. -/
theorem c3_witness :
    ∃ r' ∈ [(⟨"k", "v", .vput, 0⟩ : Record)],
      r'.key = (⟨"k", "v", .vput, 0⟩ : Record).key ∧
      ((⟨"k", "v", .vput, 0⟩ : Record).seq = r'.seq ∨
        ((⟨"k", "v", .vput, 0⟩ : Record).seq = 0 ∧ cfgNB.bottommost = true ∧
          ∀ s ∈ cfgNB.snapshots, s < r'.seq)) :=
  c3_seq_preserved_or_zero cfgNB [⟨"k", "v", .vput, 0⟩] ⟨"k", "v", .vput, 0⟩
    (by decide)

/-! ## C4: SingleDelete + Put annihilation -/

/-- Counterexample for C4: with an earliest write-conflict snapshot (20)
below the SingleDelete's sequence (30), the write-conflict retention rule
emits both the SingleDelete and its paired Put even at the bottommost level
with an empty snapshot list, so the output is not empty. -/
theorem c4_counterexample :
    cfgRet.bottommost = true ∧ cfgRet.snapshots = [] ∧
      bucket cfgRet.snapshots 30 = bucket cfgRet.snapshots 25 ∧
      compactIter cfgRet inS3 = .ok inS3 := ⟨rfl, rfl, rfl, by rfl⟩

/-- C4 (amended): a SingleDelete immediately followed by exactly one Put for
the same user key in the same snapshot bucket annihilates with it — neither
record appears in the output — at the bottommost level with no snapshot
separating the two records, provided the SingleDelete is not above the
earliest write-conflict snapshot (otherwise the retention rule keeps both);
in particular for `SingleDelete(k)@30`, `Put(k,"v")@25`, an empty snapshot
list, bottommost level and no write-conflict snapshot the output is empty. -/
theorem c4_sdel_put_annihilation (cfg : Config) (k sv v : String) (q1 q2 : Nat)
    (_hb : cfg.bottommost = true) (_hq : q2 < q1)
    (hbk : bucket cfg.snapshots q1 = bucket cfg.snapshots q2)
    (hw : ∀ w, cfg.ewcs = some w → q1 ≤ w) :
    compactIter cfg [⟨k, sv, .vsdel, q1⟩, ⟨k, v, .vput, q2⟩] = .ok [] := by
  have hrun : runOut cfg [⟨k, sv, .vsdel, q1⟩, ⟨k, v, .vput, q2⟩] = [] := by
    unfold runOut
    cases hw' : cfg.ewcs with
    | none => rfl
    | some w =>
      have : ¬ (w < q1) := Nat.not_lt.mpr (hw w hw')
      simp [this]
  have hcore : ((chunksBy (fun r => bucket cfg.snapshots r.seq)
      [⟨k, sv, .vsdel, q1⟩, ⟨k, v, .vput, q2⟩]).map (runOut cfg)).flatten = [] := by
    rw [chunksBy_cons]
    have htw : [Record.mk k v .vput q2].takeWhile
        (fun x => bucket cfg.snapshots x.seq =
          bucket cfg.snapshots (Record.mk k sv .vsdel q1).seq) = [⟨k, v, .vput, q2⟩] := by
      simp [List.takeWhile_cons, hbk.symm]
    have hdw : [Record.mk k v .vput q2].dropWhile
        (fun x => bucket cfg.snapshots x.seq =
          bucket cfg.snapshots (Record.mk k sv .vsdel q1).seq) = [] := by
      simp [List.dropWhile_cons, hbk.symm]
    rw [htw, hdw, chunksBy_nil]
    simp only [List.map_cons, List.map_nil, List.flatten_cons, List.flatten_nil,
      List.append_nil]
    exact hrun
  have hgroup : outGroup cfg [⟨k, sv, .vsdel, q1⟩, ⟨k, v, .vput, q2⟩] = [] := by
    unfold outGroup coreOut
    rw [hcore]
    split <;> rfl
  unfold compactIter
  rw [if_neg (by simp)]
  congr 1
  unfold compactStream
  rw [chunksBy_cons]
  have htw : [Record.mk k v .vput q2].takeWhile
      (fun x => x.key = (Record.mk k sv .vsdel q1).key) = [⟨k, v, .vput, q2⟩] := by
    simp [List.takeWhile_cons]
  have hdw : [Record.mk k v .vput q2].dropWhile
      (fun x => x.key = (Record.mk k sv .vsdel q1).key) = [] := by
    simp [List.dropWhile_cons]
  rw [htw, hdw, chunksBy_nil]
  simp only [List.map_cons, List.map_nil, List.flatten_cons, List.flatten_nil,
    List.append_nil]
  exact hgroup

/-- Witness for C4: scenario S3 — `SingleDelete(k)@30` then `Put(k,"v")@25`,
empty snapshot list, bottommost, no write-conflict snapshot: empty output. -/
theorem c4_witness : compactIter cfgS3 [⟨"k", "", .vsdel, 30⟩, ⟨"k", "v", .vput, 25⟩] = .ok [] :=
  c4_sdel_put_annihilation cfgS3 "k" "" "v" 30 25 rfl (by norm_num) rfl
    (fun w h => by simp [cfgS3] at h)

/-! ## Counting, SingleDelete and bucket lemmas for snapshot consistency -/

theorem putCount_nil : putCount ([] : List Record) = 0 := rfl

theorem putCount_cons (r : Record) (l : List Record) :
    putCount (r :: l) = (if r.vt = .vput then 1 else 0) + putCount l := by
  unfold putCount
  rw [List.filter_cons]
  by_cases h : r.vt = VType.vput
  · rw [if_pos (by simp [h]), if_pos h]
    simp [Nat.add_comm]
  · rw [if_neg (by simp [h]), if_neg h]
    simp

theorem putCount_append (l1 l2 : List Record) :
    putCount (l1 ++ l2) = putCount l1 + putCount l2 := by
  unfold putCount
  rw [List.filter_append, List.length_append]

theorem putCount_sublist {l1 l2 : List Record} (h : l1.Sublist l2) :
    putCount l1 ≤ putCount l2 :=
  List.Sublist.length_le (h.filter _)

theorem zeroRec_vt (cfg : Config) (r : Record) : (zeroRec cfg r).vt = r.vt := by
  unfold zeroRec; split <;> rfl

theorem putCount_map_zeroRec (cfg : Config) (l : List Record) :
    putCount (l.map (zeroRec cfg)) = putCount l := by
  induction l with
  | nil => rfl
  | cons r l ih => simp only [List.map_cons, putCount_cons, zeroRec_vt, ih]

theorem noMerge_sublist {l1 l2 : List Record} (h : l1.Sublist l2)
    (hm : noMerge l2) : noMerge l1 :=
  fun r hr => hm r (h.mem hr)

theorem sdBelowOk_sublist {l1 l2 : List Record} (h : l1.Sublist l2)
    (hs : sdBelowOk l2) : sdBelowOk l1 := by
  induction h with
  | slnil => trivial
  | cons a _ ih => exact ih hs.2
  | cons₂ a h ih =>
    exact ⟨fun hv => (putCount_sublist h).trans (hs.1 hv), ih hs.2⟩

theorem sdBelowOk_append_iff (l1 l2 : List Record) :
    sdBelowOk (l1 ++ l2) ↔ (sdBelowOkP (putCount l2) l1 ∧ sdBelowOk l2) := by
  induction l1 with
  | nil => simp [sdBelowOkP, sdBelowOk]
  | cons a l1 ih =>
    constructor
    · rintro ⟨h1, h2⟩
      simp only [List.append_eq] at h1 h2
      rw [ih] at h2
      exact ⟨⟨fun hv => by rw [← putCount_append]; exact h1 hv, h2.1⟩, h2.2⟩
    · rintro ⟨⟨h1, h2⟩, h3⟩
      refine ⟨fun hv => ?_, ?_⟩
      · simp only [List.append_eq, putCount_append]
        exact h1 hv
      · simp only [List.append_eq]
        exact ih.mpr ⟨h2, h3⟩

theorem sdBelowOkP_of_noSd {k : Nat} {l : List Record}
    (h : ∀ x ∈ l, x.vt ≠ .vsdel) : sdBelowOkP k l := by
  induction l with
  | nil => trivial
  | cons a l ih =>
    exact ⟨fun hv => absurd hv (h a (List.mem_cons_self a l)),
      ih (fun x hx => h x (List.mem_cons_of_mem a hx))⟩

theorem sdBelowOk_of_noSd {l : List Record}
    (h : ∀ x ∈ l, x.vt ≠ .vsdel) : sdBelowOk l := by
  induction l with
  | nil => trivial
  | cons a l ih =>
    exact ⟨fun hv => absurd hv (h a (List.mem_cons_self a l)),
      ih (fun x hx => h x (List.mem_cons_of_mem a hx))⟩

/-- Resolution over a Put-free, Merge-free visible stream yields absence. -/
theorem resolveFrom_none_of_no_put (f : String → String → String) :
    ∀ l : List Record, noMerge l → putCount l = 0 → resolveFrom f [] l = none := by
  intro l
  induction l with
  | nil => intro _ _; rfl
  | cons r rest ih =>
    intro hm hp
    have hrv : r.vt ≠ .vput := by
      intro h
      rw [putCount_cons, if_pos h] at hp
      omega
    have hrm : r.vt ≠ .vmerge := hm r (List.mem_cons_self r rest)
    have hp' : putCount rest = 0 := by
      rw [putCount_cons] at hp
      omega
    have hm' : noMerge rest := fun x hx => hm x (List.mem_cons_of_mem r hx)
    obtain ⟨rk, rv, rt, rq⟩ := r
    cases rt with
    | vput => exact absurd rfl hrv
    | vmerge => exact absurd rfl hrm
    | vdel => rfl
    | vsdel =>
      cases rest with
      | nil => rfl
      | cons p rest2 =>
        have hpv : p.vt ≠ VType.vput := by
          intro h
          rw [putCount_cons, if_pos h] at hp'
          omega
        show (if p.vt = VType.vput then resolveFrom f [] rest2
              else resolveFrom f [] (p :: rest2)) = none
        rw [if_neg hpv]
        exact ih hm' hp'

/-- Resolution of a well-used SingleDelete (at most one Put below, no Merge
below) yields absence: the SingleDelete cancels the one Put, if any, and
nothing else can produce a value. -/
theorem resolveFrom_sdel_none (f : String → String → String) :
    ∀ (n : Nat) (l : List Record) (sd : Record), l.length ≤ n →
      sd.vt = .vsdel → noMerge l → putCount l ≤ 1 →
      resolveFrom f [] (sd :: l) = none := by
  intro n
  induction n with
  | zero =>
    intro l sd hn hv _ _
    have : l = [] := List.eq_nil_of_length_eq_zero (Nat.le_zero.mp hn)
    subst this
    obtain ⟨sk, sv, st, sq⟩ := sd
    cases st with
    | vsdel => rfl
    | vput => cases hv
    | vdel => cases hv
    | vmerge => cases hv
  | succ n ih =>
    intro l sd hn hv hm hp
    obtain ⟨sk, sv, st, sq⟩ := sd
    cases st with
    | vput => cases hv
    | vdel => cases hv
    | vmerge => cases hv
    | vsdel =>
      cases l with
      | nil => rfl
      | cons p rest2 =>
        simp only [List.length_cons, Nat.succ_le_succ_iff] at hn
        have hm' : noMerge rest2 := fun x hx => hm x (List.mem_cons_of_mem p hx)
        show (if p.vt = VType.vput then resolveFrom f [] rest2
              else resolveFrom f [] (p :: rest2)) = none
        by_cases hpv : p.vt = VType.vput
        · rw [if_pos hpv]
          refine resolveFrom_none_of_no_put f rest2 hm' ?_
          rw [putCount_cons, if_pos hpv] at hp
          omega
        · rw [if_neg hpv]
          obtain ⟨pk, pv, pt, pq⟩ := p
          cases pt with
          | vput => exact absurd rfl hpv
          | vmerge => exact absurd rfl (hm _ (List.mem_cons_self _ rest2))
          | vdel => rfl
          | vsdel =>
            refine ih rest2 ⟨pk, pv, .vsdel, pq⟩ hn rfl hm' ?_
            have := putCount_cons ⟨pk, pv, .vsdel, pq⟩ rest2
            rw [putCount_cons] at hp
            simp at hp
            omega

/-- Accumulating a chain of merge operands. -/
theorem resolveFrom_merge_ops (f : String → String → String) :
    ∀ (ops : List Record) (acc : List String) (rest : List Record),
      (∀ x ∈ ops, x.vt = .vmerge) →
      resolveFrom f acc (ops ++ rest) =
        resolveFrom f (acc ++ ops.map (fun x => x.val)) rest := by
  intro ops
  induction ops with
  | nil => intro acc rest _; simp
  | cons m ops ih =>
    intro acc rest hm
    have hmv := hm m (List.mem_cons_self m ops)
    obtain ⟨mk1, mv1, mt1, mq1⟩ := m
    cases mt1 with
    | vput => cases hmv
    | vdel => cases hmv
    | vsdel => cases hmv
    | vmerge =>
      show resolveFrom f (acc ++ [mv1]) (ops ++ rest) = _
      rw [ih (acc ++ [mv1]) rest (fun x hx => hm x (List.mem_cons_of_mem _ hx))]
      simp [List.append_assoc]

theorem bucket_spec {snaps : List Nat} {q b : Nat} (h : bucket snaps q = some b) :
    q ≤ b ∧ b ∈ snaps := by
  unfold bucket at h
  exact ⟨by simpa using List.find?_some h, List.mem_of_find?_eq_some h⟩

/-- For a listed snapshot `s` of the ascending snapshot list, any sequence
`q ≤ s` falls into a bucket at or below `s`. -/
theorem bucket_le {snaps : List Nat} (hsort : snaps.Pairwise (· < ·)) {s q : Nat}
    (hs : s ∈ snaps) (hq : q ≤ s) : ∃ b, bucket snaps q = some b ∧ b ≤ s := by
  induction snaps with
  | nil => simp at hs
  | cons s0 rest ih =>
    by_cases h0 : q ≤ s0
    · refine ⟨s0, ?_, ?_⟩
      · unfold bucket
        rw [List.find?_cons_of_pos _ (by simpa using h0)]
      · rcases List.mem_cons.mp hs with h | h
        · omega
        · have : s0 < s := (List.pairwise_cons.mp hsort).1 s h
          omega
    · have hs' : s ∈ rest := by
        rcases List.mem_cons.mp hs with h | h
        · omega
        · exact h
      obtain ⟨b, hb, hbs⟩ := ih (List.pairwise_cons.mp hsort).2 hs'
      refine ⟨b, ?_, hbs⟩
      unfold bucket at hb ⊢
      rw [List.find?_cons_of_neg _ (by simpa using h0)]
      exact hb

theorem bucket_isSome_of_le {snaps : List Nat} (hsort : snaps.Pairwise (· < ·))
    {s q : Nat} (hs : s ∈ snaps) (hq : q ≤ s) : bucket snaps q ≠ none := by
  obtain ⟨b, hb, _⟩ := bucket_le hsort hs hq
  rw [hb]
  simp

/-- Below the earliest snapshot all sequence numbers share a bucket. -/
theorem bucket_below_all {snaps : List Nat} {q q' : Nat}
    (hall : ∀ t ∈ snaps, q ≤ t) (hq : q' ≤ q) :
    bucket snaps q' = bucket snaps q := by
  cases snaps with
  | nil => rfl
  | cons s0 rest =>
    have h0 : q ≤ s0 := hall s0 (List.mem_cons_self s0 rest)
    unfold bucket
    rw [List.find?_cons_of_pos _ (by simpa using le_trans hq h0),
      List.find?_cons_of_pos _ (by simpa using h0)]

theorem takeWhile_eq_self_of_dropWhile_nil {p : Record → Bool} {l : List Record}
    (h : l.dropWhile p = []) : l.takeWhile p = l := by
  have h2 := List.takeWhile_append_dropWhile p l
  rw [h, List.append_nil] at h2
  exact h2

/-! ## Structural facts about the record policy output -/

theorem putCount_pos_of_mem {x : Record} {l : List Record} (hx : x ∈ l)
    (hv : x.vt = .vput) : 1 ≤ putCount l := by
  unfold putCount
  have : x ∈ l.filter (fun r => r.vt == .vput) :=
    List.mem_filter.mpr ⟨hx, by simp [hv]⟩
  exact List.length_pos.mpr (List.ne_nil_of_mem this)

theorem putCount_eq_zero_of_noPut {l : List Record}
    (h : ∀ x ∈ l, x.vt ≠ .vput) : putCount l = 0 := by
  unfold putCount
  rw [List.filter_eq_nil_iff.mpr (by intro a ha; simpa using h a ha)]
  rfl

/-- Every record a run emits is a record of the run or a Put (the
collapsed-merge output). -/
theorem runOut_mem_or_put (cfg : Config) (run : List Record) :
    ∀ x ∈ runOut cfg run, x ∈ run ∨ x.vt = .vput := by
  intro x
  match run with
  | [] => intro hx; simp [runOut] at hx
  | ⟨rk, rv, rt, rq⟩ :: rest =>
    cases rt with
    | vput =>
      simp only [runOut]
      intro hx
      split at hx
      · simp at hx
      · simp only [List.mem_singleton] at hx
        subst hx
        exact Or.inl (List.mem_cons_self _ _)
    | vdel =>
      simp only [runOut]
      intro hx
      split at hx
      · simp at hx
      · simp only [List.mem_singleton] at hx
        subst hx
        exact Or.inl (List.mem_cons_self _ _)
    | vsdel =>
      intro hx
      cases hre : rest with
      | nil =>
        rw [hre] at hx
        replace hx : x ∈ [Record.mk rk rv .vsdel rq] := hx
        simp only [List.mem_singleton] at hx
        subst hx
        exact Or.inl (List.mem_cons_self _ _)
      | cons p tail =>
        rw [hre] at hx
        replace hx : x ∈ (if p.vt = VType.vput then
            (match cfg.ewcs with
              | some w => if w < rq then [Record.mk rk rv .vsdel rq, p] else []
              | none => ([] : List Record))
            else [Record.mk rk rv .vsdel rq]) := hx
        by_cases hp : p.vt = VType.vput
        · rw [if_pos hp] at hx
          cases hew : cfg.ewcs with
          | none => rw [hew] at hx; simp at hx
          | some w =>
            rw [hew] at hx
            replace hx : x ∈ (if w < rq then [Record.mk rk rv .vsdel rq, p] else []) := hx
            by_cases hlt : w < rq
            · rw [if_pos hlt] at hx
              rcases List.mem_pair.mp hx with h | h
              · subst h; exact Or.inl (List.mem_cons_self _ _)
              · refine Or.inl ?_
                rw [h]
                exact List.mem_cons_of_mem _
                  (by subst hre; exact List.mem_cons_self _ _)
            · rw [if_neg hlt] at hx; simp at hx
        · rw [if_neg hp] at hx
          simp only [List.mem_singleton] at hx
          subst hx
          exact Or.inl (List.mem_cons_self _ _)
    | vmerge =>
      simp only [runOut]
      intro hx
      rcases hdw : rest.dropWhile (fun x => x.vt = VType.vmerge) with _ | ⟨a, tail⟩
      · rw [hdw] at hx
        replace hx : x ∈ (Record.mk rk rv .vmerge rq ::
            rest.takeWhile (fun x => x.vt = VType.vmerge)) := hx
        rcases List.mem_cons.mp hx with h0 | h0
        · subst h0; exact Or.inl (List.mem_cons_self _ _)
        · exact Or.inl (List.mem_cons_of_mem _ ((rest.takeWhile_sublist _).mem h0))
      · rw [hdw] at hx
        replace hx : x ∈ (if a.vt = VType.vput then
            [Record.mk rk (mergeFold cfg ((Record.mk rk rv .vmerge rq ::
              rest.takeWhile (fun x => x.vt = VType.vmerge)).map (fun x => x.val)) a.val)
              VType.vput rq]
            else (Record.mk rk rv .vmerge rq ::
              rest.takeWhile (fun x => x.vt = VType.vmerge)) ++ [a]) := hx
        by_cases hp : a.vt = VType.vput
        · rw [if_pos hp] at hx
          simp only [List.mem_singleton] at hx
          subst hx
          exact Or.inr rfl
        · rw [if_neg hp] at hx
          rcases List.mem_append.mp hx with h | h
          · rcases List.mem_cons.mp h with h0 | h0
            · subst h0; exact Or.inl (List.mem_cons_self _ _)
            · exact Or.inl (List.mem_cons_of_mem _ ((rest.takeWhile_sublist _).mem h0))
          · simp only [List.mem_singleton] at h
            have ha : a ∈ rest := (rest.dropWhile_sublist _).mem
              (by rw [hdw]; exact List.mem_cons_self a tail)
            refine Or.inl ?_
            rw [h]
            exact List.mem_cons_of_mem _ ha

theorem runOut_noMerge {cfg : Config} {run : List Record} (hm : noMerge run) :
    noMerge (runOut cfg run) := by
  intro x hx
  rcases runOut_mem_or_put cfg run x hx with h | h
  · exact hm x h
  · rw [h]; intro hc; cases hc

/-- A run emits at most as many Puts as it contains. -/
theorem runOut_putCount (cfg : Config) (run : List Record) :
    putCount (runOut cfg run) ≤ putCount run := by
  match run with
  | [] => exact le_refl _
  | ⟨rk, rv, rt, rq⟩ :: rest =>
    cases rt with
    | vput =>
      simp only [runOut]
      split
      · exact Nat.zero_le _
      · rw [putCount_cons, putCount_cons, putCount_nil]
        omega
    | vdel =>
      simp only [runOut]
      split
      · exact Nat.zero_le _
      · rw [putCount_cons, putCount_cons, putCount_nil]
        omega
    | vsdel =>
      cases hre : rest with
      | nil => exact le_refl _
      | cons p tail =>
        show putCount (if p.vt = VType.vput then
            (match cfg.ewcs with
              | some w => if w < rq then [Record.mk rk rv .vsdel rq, p] else []
              | none => ([] : List Record))
            else [Record.mk rk rv .vsdel rq]) ≤ _
        by_cases hp : p.vt = VType.vput
        · rw [if_pos hp]
          cases cfg.ewcs with
          | none => exact Nat.zero_le _
          | some w =>
            show putCount (if w < rq then [Record.mk rk rv .vsdel rq, p] else
              ([] : List Record)) ≤ _
            by_cases hlt : w < rq
            · rw [if_pos hlt]
              rw [putCount_cons, putCount_cons, putCount_cons, putCount_cons, putCount_nil]
              omega
            · rw [if_neg hlt]
              exact Nat.zero_le _
        · rw [if_neg hp]
          rw [putCount_cons, putCount_cons, putCount_nil]
          omega
    | vmerge =>
      have hops : ∀ x ∈ (Record.mk rk rv .vmerge rq ::
          rest.takeWhile (fun x => x.vt = VType.vmerge)), x.vt ≠ VType.vput := by
        intro x hx
        rcases List.mem_cons.mp hx with h | h
        · subst h; intro hcc; cases hcc
        · have hxw := List.mem_takeWhile_imp h
          simp only [decide_eq_true_eq] at hxw
          rw [hxw]; intro hcc; cases hcc
      simp only [runOut]
      rcases hdw : rest.dropWhile (fun x => x.vt = VType.vmerge) with _ | ⟨a, tail⟩
      · rw [hdw]
        show putCount (Record.mk rk rv .vmerge rq ::
            rest.takeWhile (fun x => x.vt = VType.vmerge)) ≤ _
        rw [putCount_eq_zero_of_noPut hops]
        exact Nat.zero_le _
      · rw [hdw]
        show putCount (if a.vt = VType.vput then
            [Record.mk rk (mergeFold cfg ((Record.mk rk rv .vmerge rq ::
              rest.takeWhile (fun x => x.vt = VType.vmerge)).map (fun x => x.val)) a.val)
              VType.vput rq]
            else (Record.mk rk rv .vmerge rq ::
              rest.takeWhile (fun x => x.vt = VType.vmerge)) ++ [a]) ≤ _
        have ha : a ∈ rest := (rest.dropWhile_sublist _).mem
          (by rw [hdw]; exact List.mem_cons_self a tail)
        by_cases hp : a.vt = VType.vput
        · rw [if_pos hp]
          have h1 : 1 ≤ putCount rest := putCount_pos_of_mem ha hp
          have h2 : putCount [Record.mk rk (mergeFold cfg ((Record.mk rk rv .vmerge rq ::
              rest.takeWhile (fun x => x.vt = VType.vmerge)).map (fun x => x.val)) a.val)
              VType.vput rq] = 1 := rfl
          rw [h2, putCount_cons]
          have h3 : (if (Record.mk rk rv .vmerge rq).vt = VType.vput then 1 else 0) = 0 := rfl
          rw [h3]
          omega
        · rw [if_neg hp]
          rw [putCount_append, putCount_eq_zero_of_noPut hops, putCount_cons, putCount_cons,
            putCount_nil]
          rw [if_neg hp]
          have h2 : (if (Record.mk rk rv .vmerge rq).vt = VType.vput then 1 else 0) = 0 := rfl
          rw [h2]
          omega

theorem coreOut_nil (cfg : Config) : coreOut cfg [] = [] := rfl

theorem coreOut_cons (cfg : Config) (r : Record) (rest : List Record) :
    coreOut cfg (r :: rest) =
      runOut cfg (r :: rest.takeWhile
        (fun x => bucket cfg.snapshots x.seq = bucket cfg.snapshots r.seq)) ++
      coreOut cfg (rest.dropWhile
        (fun x => bucket cfg.snapshots x.seq = bucket cfg.snapshots r.seq)) := by
  unfold coreOut
  rw [chunksBy_cons]
  simp [List.flatten_cons]

theorem coreOut_putCount (cfg : Config) :
    ∀ g : List Record, putCount (coreOut cfg g) ≤ putCount g := by
  refine chunksBy_induction (fun r => bucket cfg.snapshots r.seq) _ ?_ ?_
  · simp [coreOut_nil, putCount]
  · intro r rest ih
    have ih' : putCount (coreOut cfg (rest.dropWhile
        (fun x => bucket cfg.snapshots x.seq = bucket cfg.snapshots r.seq))) ≤
        putCount (rest.dropWhile
        (fun x => bucket cfg.snapshots x.seq = bucket cfg.snapshots r.seq)) := ih
    rw [coreOut_cons, putCount_append]
    have h1 := runOut_putCount cfg (r :: rest.takeWhile
      (fun x => bucket cfg.snapshots x.seq = bucket cfg.snapshots r.seq))
    have h3 : putCount (r :: rest.takeWhile
        (fun x => bucket cfg.snapshots x.seq = bucket cfg.snapshots r.seq)) +
        putCount (rest.dropWhile
        (fun x => bucket cfg.snapshots x.seq = bucket cfg.snapshots r.seq)) =
        putCount (r :: rest) := by
      rw [← putCount_append, List.cons_append, List.takeWhile_append_dropWhile]
    omega

theorem coreOut_noMerge {cfg : Config} {g : List Record} (hm : noMerge g) :
    noMerge (coreOut cfg g) := by
  intro x hx
  unfold coreOut at hx
  obtain ⟨ro, hro, hxro⟩ := List.mem_flatten.mp hx
  obtain ⟨run, hrun, hruno⟩ := List.mem_map.mp hro
  subst hruno
  rcases runOut_mem_or_put cfg run x hxro with h | h
  · exact hm x (mem_of_mem_chunksBy hrun h)
  · rw [h]; intro hc; cases hc

theorem coreOut_source (cfg : Config) (g : List Record) :
    ∀ x ∈ coreOut cfg g, ∃ r ∈ g, r.key = x.key ∧ r.seq = x.seq := by
  intro x hx
  unfold coreOut at hx
  obtain ⟨ro, hro, hxro⟩ := List.mem_flatten.mp hx
  obtain ⟨run, hrun, hruno⟩ := List.mem_map.mp hro
  subst hruno
  obtain ⟨r, hr, hk, hq⟩ := runOut_source cfg run x hxro
  exact ⟨r, mem_of_mem_chunksBy hrun hr, hk, hq⟩

theorem coreOut_mem_or_put (cfg : Config) (g : List Record) :
    ∀ x ∈ coreOut cfg g, x ∈ g ∨ x.vt = .vput := by
  intro x hx
  unfold coreOut at hx
  obtain ⟨ro, hro, hxro⟩ := List.mem_flatten.mp hx
  obtain ⟨run, hrun, hruno⟩ := List.mem_map.mp hro
  subst hruno
  rcases runOut_mem_or_put cfg run x hxro with h | h
  · exact Or.inl (mem_of_mem_chunksBy hrun h)
  · exact Or.inr h

/-! ## Shape equations for the record policy and reader resolution -/

theorem runOut_put_eq (cfg : Config) (k v : String) (q : Nat) (tl : List Record)
    (h : bucket cfg.snapshots q ≠ none) :
    runOut cfg (⟨k, v, .vput, q⟩ :: tl) = [⟨k, v, .vput, q⟩] := by
  show (if bucket cfg.snapshots q = none ∧ filterRemoves cfg ⟨k, v, .vput, q⟩ then
      ([] : List Record) else [⟨k, v, .vput, q⟩]) = [⟨k, v, .vput, q⟩]
  rw [if_neg (fun hc => h hc.1)]

theorem runOut_del_eq (cfg : Config) (k v : String) (q : Nat) (tl : List Record) :
    runOut cfg (⟨k, v, .vdel, q⟩ :: tl) =
      if dropTombstone cfg ⟨k, v, .vdel, q⟩ then [] else [⟨k, v, .vdel, q⟩] := rfl

theorem runOut_sdel_nil_eq (cfg : Config) (k v : String) (q : Nat) :
    runOut cfg [⟨k, v, .vsdel, q⟩] = [⟨k, v, .vsdel, q⟩] := rfl

theorem runOut_sdel_cons_eq (cfg : Config) (k v : String) (q : Nat) (p : Record)
    (tl : List Record) :
    runOut cfg (⟨k, v, .vsdel, q⟩ :: p :: tl) =
      if p.vt = .vput then
        (match cfg.ewcs with
          | some w => if w < q then [⟨k, v, .vsdel, q⟩, p] else []
          | none => [])
      else [⟨k, v, .vsdel, q⟩] := rfl

theorem runOut_merge_eq (cfg : Config) (k v : String) (q : Nat) (tl : List Record) :
    runOut cfg (⟨k, v, .vmerge, q⟩ :: tl) =
      match tl.dropWhile (fun x => x.vt = VType.vmerge) with
      | a :: _ =>
          if a.vt = .vput then
            [⟨k, mergeFold cfg ((⟨k, v, .vmerge, q⟩ ::
              tl.takeWhile (fun x => x.vt = VType.vmerge)).map (fun x => x.val)) a.val,
              .vput, q⟩]
          else (⟨k, v, .vmerge, q⟩ :: tl.takeWhile (fun x => x.vt = VType.vmerge)) ++ [a]
      | [] => ⟨k, v, .vmerge, q⟩ :: tl.takeWhile (fun x => x.vt = VType.vmerge) := rfl

theorem resolveFrom_put_eq (f : String → String → String) (acc : List String)
    (k v : String) (q : Nat) (tl : List Record) :
    resolveFrom f acc (⟨k, v, .vput, q⟩ :: tl) = some (acc.foldr f v) := rfl

theorem resolveFrom_del_nil_eq (f : String → String → String)
    (k v : String) (q : Nat) (tl : List Record) :
    resolveFrom f [] (⟨k, v, .vdel, q⟩ :: tl) = none := rfl

theorem resolveFrom_del_cons_eq (f : String → String → String) (c : String)
    (cs : List String) (k v : String) (q : Nat) (tl : List Record) :
    resolveFrom f (c :: cs) (⟨k, v, .vdel, q⟩ :: tl) =
      some ((c :: cs).foldr f "") := rfl

theorem resolveFrom_mrg_eq (f : String → String → String) (acc : List String)
    (k v : String) (q : Nat) (tl : List Record) :
    resolveFrom f acc (⟨k, v, .vmerge, q⟩ :: tl) = resolveFrom f (acc ++ [v]) tl := rfl

theorem dropWhile_head_neg {p : Record → Bool} :
    ∀ {l : List Record} {a : Record} {t : List Record},
      l.dropWhile p = a :: t → p a = false := by
  intro l
  induction l with
  | nil => intro a t h; simp at h
  | cons b l ih =>
    intro a t h
    rw [List.dropWhile_cons] at h
    by_cases hb : p b = true
    · rw [if_pos hb] at h
      exact ih h
    · rw [if_neg hb] at h
      injection h with h1 _
      rw [← h1]
      cases hpb : p b with
      | true => exact absurd hpb hb
      | false => rfl

/-- Resolution through the record policy is transparent for a user-key group
in descending sequence order whose records all fall into some snapshot
bucket, provided SingleDelete is well used (no Merge alongside one, at most
one Put below one).  The accumulated merge-operand chain is preserved; a
nonempty chain certifies that the group holds no SingleDelete. -/
theorem resolveCore (cfg : Config) (g : List Record) : ∀ acc : List String,
    g.Pairwise (fun a b => b.seq < a.seq) →
    ((∃ x ∈ g, x.vt = .vsdel) → noMerge g) →
    sdBelowOk g →
    (∀ x ∈ g, bucket cfg.snapshots x.seq ≠ none) →
    (acc ≠ [] → ∀ x ∈ g, x.vt ≠ .vsdel) →
    resolveFrom (mergeF cfg) acc (coreOut cfg g) = resolveFrom (mergeF cfg) acc g := by
  induction g using chunksBy_induction (fun r => bucket cfg.snapshots r.seq) with
  | nil => intro acc _ _ _ _ _; rfl
  | cons r rest ih =>
    obtain ⟨rk, rv, rt, rq⟩ := r
    intro acc hdesc hnm hsb hbk hnosd
    have ih' : ∀ acc : List String,
        (rest.dropWhile
          (fun x => bucket cfg.snapshots x.seq = bucket cfg.snapshots rq)).Pairwise
          (fun a b => b.seq < a.seq) →
        ((∃ x ∈ rest.dropWhile
            (fun x => bucket cfg.snapshots x.seq = bucket cfg.snapshots rq),
            x.vt = .vsdel) →
          noMerge (rest.dropWhile
            (fun x => bucket cfg.snapshots x.seq = bucket cfg.snapshots rq))) →
        sdBelowOk (rest.dropWhile
          (fun x => bucket cfg.snapshots x.seq = bucket cfg.snapshots rq)) →
        (∀ x ∈ rest.dropWhile
            (fun x => bucket cfg.snapshots x.seq = bucket cfg.snapshots rq),
          bucket cfg.snapshots x.seq ≠ none) →
        (acc ≠ [] →
          ∀ x ∈ rest.dropWhile
            (fun x => bucket cfg.snapshots x.seq = bucket cfg.snapshots rq),
            x.vt ≠ .vsdel) →
        resolveFrom (mergeF cfg) acc
            (coreOut cfg (rest.dropWhile
              (fun x => bucket cfg.snapshots x.seq = bucket cfg.snapshots rq))) =
          resolveFrom (mergeF cfg) acc
            (rest.dropWhile
              (fun x => bucket cfg.snapshots x.seq = bucket cfg.snapshots rq)) := ih
    have hco : coreOut cfg (Record.mk rk rv rt rq :: rest) =
        runOut cfg (Record.mk rk rv rt rq :: rest.takeWhile
          (fun x => bucket cfg.snapshots x.seq = bucket cfg.snapshots rq)) ++
        coreOut cfg (rest.dropWhile
          (fun x => bucket cfg.snapshots x.seq = bucket cfg.snapshots rq)) :=
      coreOut_cons cfg _ rest
    have hdesc' : ∀ x ∈ rest, x.seq < rq :=
      fun x hx => (List.pairwise_cons.mp hdesc).1 x hx
    have hdwsub : (rest.dropWhile
        (fun x => bucket cfg.snapshots x.seq = bucket cfg.snapshots rq)).Sublist rest :=
      List.dropWhile_sublist _
    cases rt with
    | vput =>
      have hbk' : bucket cfg.snapshots rq ≠ none := hbk _ (List.mem_cons_self _ _)
      rw [hco, runOut_put_eq cfg rk rv rq _ hbk', List.singleton_append,
        resolveFrom_put_eq, resolveFrom_put_eq]
    | vdel =>
      by_cases hdt : dropTombstone cfg (Record.mk rk rv VType.vdel rq) = true
      · have hba : belowAllSnaps cfg.snapshots rq = true := by
          unfold dropTombstone at hdt
          simp only [Bool.and_eq_true] at hdt
          exact hdt.1.1.2
        have hall : ∀ t ∈ cfg.snapshots, rq ≤ t := by
          intro t ht
          unfold belowAllSnaps at hba
          have h2 := List.all_eq_true.mp hba t ht
          simpa using h2
        have hdwnil : rest.dropWhile
            (fun x => bucket cfg.snapshots x.seq = bucket cfg.snapshots rq) = [] := by
          rw [List.dropWhile_eq_nil_iff]
          intro x hx
          simpa using bucket_below_all hall (Nat.le_of_lt (hdesc' x hx))
        rw [hco, hdwnil, coreOut_nil, List.append_nil, runOut_del_eq, if_pos hdt]
        cases acc with
        | nil => rfl
        | cons c cs => rfl
      · rw [hco, runOut_del_eq, if_neg hdt, List.singleton_append]
        cases acc with
        | nil => rw [resolveFrom_del_nil_eq, resolveFrom_del_nil_eq]
        | cons c cs => rw [resolveFrom_del_cons_eq, resolveFrom_del_cons_eq]
    | vsdel =>
      have hacc : acc = [] := by
        by_contra hne
        exact hnosd hne _ (List.mem_cons_self _ _) rfl
      subst hacc
      have hnm1 : noMerge (Record.mk rk rv VType.vsdel rq :: rest) :=
        hnm ⟨_, List.mem_cons_self _ _, rfl⟩
      have hnmrest : noMerge rest := fun x hx => hnm1 x (List.mem_cons_of_mem _ hx)
      have hpc : putCount rest ≤ 1 := hsb.1 rfl
      have hrhs : resolveFrom (mergeF cfg) []
          (Record.mk rk rv VType.vsdel rq :: rest) = none :=
        resolveFrom_sdel_none (mergeF cfg) rest.length rest _ le_rfl rfl hnmrest hpc
      rw [hco, hrhs]
      have hnmDW : noMerge (rest.dropWhile
          (fun x => bucket cfg.snapshots x.seq = bucket cfg.snapshots rq)) :=
        noMerge_sublist hdwsub hnmrest
      have hnmCO : noMerge (coreOut cfg (rest.dropWhile
          (fun x => bucket cfg.snapshots x.seq = bucket cfg.snapshots rq))) :=
        coreOut_noMerge hnmDW
      have hpcCO : putCount (coreOut cfg (rest.dropWhile
          (fun x => bucket cfg.snapshots x.seq = bucket cfg.snapshots rq))) ≤
          putCount (rest.dropWhile
            (fun x => bucket cfg.snapshots x.seq = bucket cfg.snapshots rq)) :=
        coreOut_putCount cfg _
      have hdwle : putCount (rest.dropWhile
          (fun x => bucket cfg.snapshots x.seq = bucket cfg.snapshots rq)) ≤
          putCount rest := putCount_sublist hdwsub
      rcases hTW : rest.takeWhile
          (fun x => bucket cfg.snapshots x.seq = bucket cfg.snapshots rq) with _ | ⟨p, t1⟩
      · rw [hTW, runOut_sdel_nil_eq, List.singleton_append]
        exact resolveFrom_sdel_none _ _ _ _ le_rfl rfl hnmCO (hpcCO.trans (hdwle.trans hpc))
      · rw [hTW, runOut_sdel_cons_eq]
        by_cases hp : p.vt = VType.vput
        · rw [if_pos hp]
          have hsplitc : putCount (rest.takeWhile
              (fun x => bucket cfg.snapshots x.seq = bucket cfg.snapshots rq)) +
              putCount (rest.dropWhile
                (fun x => bucket cfg.snapshots x.seq = bucket cfg.snapshots rq)) =
              putCount rest := by
            rw [← putCount_append, List.takeWhile_append_dropWhile]
          have hp1 : 1 ≤ putCount (rest.takeWhile
              (fun x => bucket cfg.snapshots x.seq = bucket cfg.snapshots rq)) := by
            rw [hTW]
            exact putCount_pos_of_mem (List.mem_cons_self _ _) hp
          have hdw0 : putCount (rest.dropWhile
              (fun x => bucket cfg.snapshots x.seq = bucket cfg.snapshots rq)) = 0 := by
            omega
          have hco0 : putCount (coreOut cfg (rest.dropWhile
              (fun x => bucket cfg.snapshots x.seq = bucket cfg.snapshots rq))) = 0 :=
            Nat.le_zero.mp (hdw0 ▸ hpcCO)
          cases hew : cfg.ewcs with
          | none =>
            show resolveFrom (mergeF cfg) [] (coreOut cfg (rest.dropWhile
              (fun x => bucket cfg.snapshots x.seq = bucket cfg.snapshots rq))) = none
            exact resolveFrom_none_of_no_put _ _ hnmCO hco0
          | some w =>
            by_cases hlt : w < rq
            · show resolveFrom (mergeF cfg) []
                  ((if w < rq then [Record.mk rk rv VType.vsdel rq, p] else []) ++
                    coreOut cfg (rest.dropWhile
                      (fun x => bucket cfg.snapshots x.seq = bucket cfg.snapshots rq))) = none
              rw [if_pos hlt]
              show resolveFrom (mergeF cfg) []
                  (Record.mk rk rv VType.vsdel rq :: p :: coreOut cfg (rest.dropWhile
                    (fun x => bucket cfg.snapshots x.seq = bucket cfg.snapshots rq))) = none
              refine resolveFrom_sdel_none _ _ _ _ le_rfl rfl ?_ ?_
              · intro x hx
                rcases List.mem_cons.mp hx with h | h
                · rw [h, hp]
                  intro hc
                  cases hc
                · exact hnmCO x h
              · rw [putCount_cons, if_pos hp, hco0]
            · show resolveFrom (mergeF cfg) []
                  ((if w < rq then [Record.mk rk rv VType.vsdel rq, p] else []) ++
                    coreOut cfg (rest.dropWhile
                      (fun x => bucket cfg.snapshots x.seq = bucket cfg.snapshots rq))) = none
              rw [if_neg hlt]
              show resolveFrom (mergeF cfg) [] (coreOut cfg (rest.dropWhile
                (fun x => bucket cfg.snapshots x.seq = bucket cfg.snapshots rq))) = none
              exact resolveFrom_none_of_no_put _ _ hnmCO hco0
        · rw [if_neg hp, List.singleton_append]
          exact resolveFrom_sdel_none _ _ _ _ le_rfl rfl hnmCO (hpcCO.trans (hdwle.trans hpc))
    | vmerge =>
      have hnosd2 : ∀ x ∈ (Record.mk rk rv VType.vmerge rq :: rest),
          x.vt ≠ VType.vsdel := by
        intro x hx hc
        exact hnm ⟨x, hx, hc⟩ _ (List.mem_cons_self _ _) rfl
      rw [hco, runOut_merge_eq]
      rcases hdw2 : (rest.takeWhile
          (fun x => bucket cfg.snapshots x.seq = bucket cfg.snapshots rq)).dropWhile
          (fun x => x.vt = VType.vmerge) with _ | ⟨a, t2⟩
      · rw [hdw2]
        have htweq : (rest.takeWhile
            (fun x => bucket cfg.snapshots x.seq = bucket cfg.snapshots rq)).takeWhile
            (fun x => x.vt = VType.vmerge) =
            rest.takeWhile
              (fun x => bucket cfg.snapshots x.seq = bucket cfg.snapshots rq) :=
          takeWhile_eq_self_of_dropWhile_nil hdw2
        show resolveFrom (mergeF cfg) acc
            ((Record.mk rk rv VType.vmerge rq :: (rest.takeWhile
              (fun x => bucket cfg.snapshots x.seq = bucket cfg.snapshots rq)).takeWhile
              (fun x => x.vt = VType.vmerge)) ++
              coreOut cfg (rest.dropWhile
                (fun x => bucket cfg.snapshots x.seq = bucket cfg.snapshots rq))) =
          resolveFrom (mergeF cfg) acc (Record.mk rk rv VType.vmerge rq :: rest)
        rw [htweq]
        have hopsm : ∀ x ∈ (Record.mk rk rv VType.vmerge rq :: rest.takeWhile
            (fun x => bucket cfg.snapshots x.seq = bucket cfg.snapshots rq)),
            x.vt = VType.vmerge := by
          intro x hx
          rcases List.mem_cons.mp hx with h | h
          · rw [h]
          · have h2 : x ∈ (rest.takeWhile
                (fun x => bucket cfg.snapshots x.seq = bucket cfg.snapshots rq)).takeWhile
                (fun x => x.vt = VType.vmerge) := by
              rw [htweq]; exact h
            simpa using List.mem_takeWhile_imp h2
        rw [resolveFrom_merge_ops (mergeF cfg) _ acc _ hopsm]
        have hsplit2 : Record.mk rk rv VType.vmerge rq :: rest =
            (Record.mk rk rv VType.vmerge rq :: rest.takeWhile
              (fun x => bucket cfg.snapshots x.seq = bucket cfg.snapshots rq)) ++
            rest.dropWhile
              (fun x => bucket cfg.snapshots x.seq = bucket cfg.snapshots rq) := by
          rw [List.cons_append, List.takeWhile_append_dropWhile]
        rw [hsplit2, resolveFrom_merge_ops (mergeF cfg) _ acc _ hopsm]
        refine ih' _ ((List.pairwise_cons.mp hdesc).2.sublist hdwsub) ?_
          (sdBelowOk_sublist hdwsub hsb.2)
          (fun x hx => hbk x (List.mem_cons_of_mem _ (hdwsub.mem hx))) ?_
        · rintro ⟨x, hx, hc⟩
          exact absurd hc (hnosd2 x (List.mem_cons_of_mem _ (hdwsub.mem hx)))
        · intro _ x hx
          exact hnosd2 x (List.mem_cons_of_mem _ (hdwsub.mem hx))
      · rw [hdw2]
        obtain ⟨ak, av, at0, aq⟩ := a
        have haM : at0 ≠ VType.vmerge := by
          simpa using dropWhile_head_neg hdw2
        have haMem : Record.mk ak av at0 aq ∈ rest := by
          have h1 : Record.mk ak av at0 aq ∈ (rest.takeWhile
              (fun x => bucket cfg.snapshots x.seq = bucket cfg.snapshots rq)).dropWhile
              (fun x => x.vt = VType.vmerge) := by
            rw [hdw2]
            exact List.mem_cons_self _ _
          exact (rest.takeWhile_sublist _).mem ((List.dropWhile_sublist _).mem h1)
        have hasd : at0 ≠ VType.vsdel := hnosd2 _ (List.mem_cons_of_mem _ haMem)
        have hopsm : ∀ x ∈ (Record.mk rk rv VType.vmerge rq :: (rest.takeWhile
            (fun x => bucket cfg.snapshots x.seq = bucket cfg.snapshots rq)).takeWhile
            (fun x => x.vt = VType.vmerge)), x.vt = VType.vmerge := by
          intro x hx
          rcases List.mem_cons.mp hx with h | h
          · rw [h]
          · simpa using List.mem_takeWhile_imp h
        have hrest2 : rest = (rest.takeWhile
            (fun x => bucket cfg.snapshots x.seq = bucket cfg.snapshots rq)).takeWhile
            (fun x => x.vt = VType.vmerge) ++
            (Record.mk ak av at0 aq :: (t2 ++ rest.dropWhile
              (fun x => bucket cfg.snapshots x.seq = bucket cfg.snapshots rq))) := by
          have h1 : rest = ((rest.takeWhile
              (fun x => bucket cfg.snapshots x.seq = bucket cfg.snapshots rq)).takeWhile
              (fun x => x.vt = VType.vmerge) ++
              (rest.takeWhile
                (fun x => bucket cfg.snapshots x.seq = bucket cfg.snapshots rq)).dropWhile
                (fun x => x.vt = VType.vmerge)) ++
              rest.dropWhile
                (fun x => bucket cfg.snapshots x.seq = bucket cfg.snapshots rq) := by
            rw [List.takeWhile_append_dropWhile, List.takeWhile_append_dropWhile]
          conv_lhs => rw [h1]
          rw [hdw2, List.append_assoc, List.cons_append]
        show resolveFrom (mergeF cfg) acc
            ((if at0 = VType.vput then
                [⟨rk, mergeFold cfg ((Record.mk rk rv VType.vmerge rq :: (rest.takeWhile
                  (fun x => bucket cfg.snapshots x.seq = bucket cfg.snapshots rq)).takeWhile
                  (fun x => x.vt = VType.vmerge)).map (fun x => x.val)) av,
                  VType.vput, rq⟩]
              else (Record.mk rk rv VType.vmerge rq :: (rest.takeWhile
                (fun x => bucket cfg.snapshots x.seq = bucket cfg.snapshots rq)).takeWhile
                (fun x => x.vt = VType.vmerge)) ++ [Record.mk ak av at0 aq]) ++
              coreOut cfg (rest.dropWhile
                (fun x => bucket cfg.snapshots x.seq = bucket cfg.snapshots rq))) =
          resolveFrom (mergeF cfg) acc (Record.mk rk rv VType.vmerge rq :: rest)
        by_cases hap : at0 = VType.vput
        · rw [if_pos hap, List.singleton_append, resolveFrom_put_eq]
          subst hap
          conv_rhs => rw [hrest2]
          rw [← List.cons_append, resolveFrom_merge_ops (mergeF cfg) _ acc _ hopsm,
            resolveFrom_put_eq, List.foldr_append]
          rfl
        · rw [if_neg hap]
          have hadel : at0 = VType.vdel := by
            cases at0 with
            | vput => exact absurd rfl hap
            | vdel => rfl
            | vmerge => exact absurd rfl haM
            | vsdel => exact absurd rfl hasd
          subst hadel
          rw [List.append_assoc, List.singleton_append,
            resolveFrom_merge_ops (mergeF cfg) _ acc _ hopsm]
          conv_rhs => rw [hrest2]
          rw [← List.cons_append, resolveFrom_merge_ops (mergeF cfg) _ acc _ hopsm]
          rcases hacc2 : acc ++ (Record.mk rk rv VType.vmerge rq :: (rest.takeWhile
              (fun x => bucket cfg.snapshots x.seq = bucket cfg.snapshots rq)).takeWhile
              (fun x => x.vt = VType.vmerge)).map (fun x => x.val) with _ | ⟨y, ys⟩
          · exact absurd hacc2 (by simp)
          · rw [resolveFrom_del_cons_eq, resolveFrom_del_cons_eq]

/-- Snapshot consistency for one user-key group: filtering the policy output
at a listed snapshot resolves exactly as filtering the group itself.  Runs
above the snapshot are invisible on both sides; once the leading record is
visible the whole (descending) group is, and `resolveCore` applies. -/
theorem groupConsistent (cfg : Config) {s : Nat}
    (hsort : cfg.snapshots.Pairwise (· < ·)) (hs : s ∈ cfg.snapshots)
    (g : List Record) :
    g.Pairwise (fun a b => b.seq < a.seq) →
    ((∃ x ∈ g, x.vt = .vsdel) → noMerge g) →
    sdBelowOk g →
    resolveFrom (mergeF cfg) []
        ((coreOut cfg g).filter (fun r => decide (r.seq ≤ s))) =
      resolveFrom (mergeF cfg) [] (g.filter (fun r => decide (r.seq ≤ s))) := by
  induction g using chunksBy_induction (fun r => bucket cfg.snapshots r.seq) with
  | nil => intro _ _ _; rfl
  | cons r rest ih =>
    intro hdesc hnm hsb
    have ih' :
        (rest.dropWhile
          (fun x => bucket cfg.snapshots x.seq = bucket cfg.snapshots r.seq)).Pairwise
          (fun a b => b.seq < a.seq) →
        ((∃ x ∈ rest.dropWhile
            (fun x => bucket cfg.snapshots x.seq = bucket cfg.snapshots r.seq),
            x.vt = .vsdel) →
          noMerge (rest.dropWhile
            (fun x => bucket cfg.snapshots x.seq = bucket cfg.snapshots r.seq))) →
        sdBelowOk (rest.dropWhile
          (fun x => bucket cfg.snapshots x.seq = bucket cfg.snapshots r.seq)) →
        resolveFrom (mergeF cfg) []
            ((coreOut cfg (rest.dropWhile
              (fun x => bucket cfg.snapshots x.seq = bucket cfg.snapshots r.seq))).filter
              (fun r => decide (r.seq ≤ s))) =
          resolveFrom (mergeF cfg) []
            ((rest.dropWhile
              (fun x => bucket cfg.snapshots x.seq = bucket cfg.snapshots r.seq)).filter
              (fun r => decide (r.seq ≤ s))) := ih
    by_cases hr : r.seq ≤ s
    · have hall : ∀ x ∈ r :: rest, x.seq ≤ s := by
        intro x hx
        rcases List.mem_cons.mp hx with h | h
        · rw [h]; exact hr
        · exact le_trans (Nat.le_of_lt ((List.pairwise_cons.mp hdesc).1 x h)) hr
      have hfin : (r :: rest).filter (fun r => decide (r.seq ≤ s)) = r :: rest :=
        List.filter_eq_self.mpr (fun x hx => by simpa using hall x hx)
      have hfout : (coreOut cfg (r :: rest)).filter (fun r => decide (r.seq ≤ s)) =
          coreOut cfg (r :: rest) := by
        refine List.filter_eq_self.mpr ?_
        intro x hx
        obtain ⟨src, hsrc, _, hq⟩ := coreOut_source cfg _ x hx
        have := hall src hsrc
        simp only [decide_eq_true_eq]
        omega
      rw [hfin, hfout]
      exact resolveCore cfg (r :: rest) [] hdesc hnm hsb
        (fun x hx => bucket_isSome_of_le hsort hs (hall x hx))
        (fun h => absurd rfl h)
    · have hinv : ∀ x ∈ r :: rest.takeWhile
          (fun x => bucket cfg.snapshots x.seq = bucket cfg.snapshots r.seq),
          ¬ x.seq ≤ s := by
        intro x hx hxs
        have hxr : bucket cfg.snapshots x.seq = bucket cfg.snapshots r.seq := by
          rcases List.mem_cons.mp hx with h | h
          · rw [h]
          · simpa using List.mem_takeWhile_imp h
        obtain ⟨b, hb, hbs⟩ := bucket_le hsort hs hxs
        rw [hxr] at hb
        exact hr (le_trans (bucket_spec hb).1 hbs)
      have hsplit : r :: rest = (r :: rest.takeWhile
          (fun x => bucket cfg.snapshots x.seq = bucket cfg.snapshots r.seq)) ++
          rest.dropWhile
            (fun x => bucket cfg.snapshots x.seq = bucket cfg.snapshots r.seq) := by
        rw [List.cons_append, List.takeWhile_append_dropWhile]
      have hfin : (r :: rest).filter (fun r => decide (r.seq ≤ s)) =
          (rest.dropWhile
            (fun x => bucket cfg.snapshots x.seq = bucket cfg.snapshots r.seq)).filter
            (fun r => decide (r.seq ≤ s)) := by
        conv_lhs => rw [hsplit]
        rw [List.filter_append,
          List.filter_eq_nil_iff.mpr (fun x hx => by simpa using hinv x hx),
          List.nil_append]
      have hfrun : (runOut cfg (r :: rest.takeWhile
          (fun x => bucket cfg.snapshots x.seq = bucket cfg.snapshots r.seq))).filter
          (fun r => decide (r.seq ≤ s)) = [] := by
        rw [List.filter_eq_nil_iff]
        intro x hx
        obtain ⟨src, hsrc, _, hq⟩ := runOut_source cfg _ x hx
        have := hinv src hsrc
        simp only [decide_eq_true_eq]
        omega
      rw [coreOut_cons, List.filter_append, hfrun, List.nil_append, hfin]
      have hdwsub : (rest.dropWhile
          (fun x => bucket cfg.snapshots x.seq = bucket cfg.snapshots r.seq)).Sublist
          (r :: rest) :=
        (List.dropWhile_sublist _).trans (List.sublist_cons_self r rest)
      exact ih' (hdesc.sublist hdwsub)
        (fun ⟨x, hx, hc⟩ => noMerge_sublist hdwsub (hnm ⟨x, hdwsub.mem hx, hc⟩))
        (sdBelowOk_sublist hdwsub hsb)

/-! ## Stream-level decomposition by user key -/

theorem outGroup_eq_coreOut_of_snap (cfg : Config) {s : Nat}
    (hs : s ∈ cfg.snapshots) (g : List Record) :
    outGroup cfg g = coreOut cfg g := by
  unfold outGroup
  rw [if_neg]
  rintro ⟨_, h2, _⟩
  rw [h2] at hs
  simp at hs

theorem compactStream_cons (cfg : Config) (r : Record) (rest : List Record) :
    compactStream cfg (r :: rest) =
      outGroup cfg (r :: rest.takeWhile (fun x => x.key = r.key)) ++
      compactStream cfg (rest.dropWhile (fun x => x.key = r.key)) := by
  unfold compactStream
  rw [chunksBy_cons]
  simp [List.flatten_cons]

theorem compactStream_key_source (cfg : Config) (l : List Record) :
    ∀ x ∈ compactStream cfg l, ∃ src ∈ l, src.key = x.key := by
  intro x hx
  unfold compactStream at hx
  obtain ⟨go, hgo, hxgo⟩ := List.mem_flatten.mp hx
  obtain ⟨g, hg, hgg⟩ := List.mem_map.mp hgo
  subst hgg
  obtain ⟨src, hsrc, hk⟩ := outGroup_key_source cfg g x hxgo
  exact ⟨src, mem_of_mem_chunksBy hg hsrc, hk⟩

theorem filter_key_seq_split (u : String) (s : Nat) (l : List Record) :
    l.filter (fun r => decide (r.key = u) && decide (r.seq ≤ s)) =
      (l.filter (fun r => decide (r.key = u))).filter (fun r => decide (r.seq ≤ s)) := by
  induction l with
  | nil => rfl
  | cons a l ih =>
    by_cases h1 : a.key = u <;> by_cases h2 : a.seq ≤ s <;>
      simp [List.filter_cons, h1, h2, ih]

/-- A strictly InternalKey-sorted list whose user keys all agree is strictly
descending in sequence number. -/
theorem desc_of_sorted_const_key {l : List Record} (hs : l.Pairwise ikLt)
    (hc : ∀ x ∈ l, ∀ y ∈ l, x.key = y.key) :
    l.Pairwise (fun a b => b.seq < a.seq) := by
  refine hs.imp_of_mem ?_
  intro a b ha hb hab
  rcases hab with h | h
  · exact absurd (congrArg String.data (hc a ha b hb)) (ne_of_lt h)
  · exact h.2

theorem sdOkStream_of_noSd {l : List Record}
    (h : ∀ x ∈ l, x.vt ≠ .vsdel) : sdOkStream l := by
  intro u
  refine ⟨?_, sdBelowOk_of_noSd (fun x hx => h x ((List.filter_sublist _).mem hx))⟩
  rintro ⟨x, hx, hc⟩
  exact absurd hc (h x ((List.filter_sublist _).mem hx))

/-- Restricting the emitted stream to one user key gives exactly the policy
output of that key's input group: the stream is the concatenation of the
per-key group outputs, and each group's output carries only that group's
user key. -/
theorem compactStream_filter_key (cfg : Config) (u : String) :
    ∀ input : List Record, input.Pairwise ikLt →
      (compactStream cfg input).filter (fun r => decide (r.key = u)) =
        outGroup cfg (input.filter (fun r => decide (r.key = u))) := by
  intro input
  induction input using chunksBy_induction (fun r => r.key) with
  | nil =>
    intro _
    show ([] : List Record) = outGroup cfg []
    unfold outGroup
    rw [coreOut_nil]
    simp
  | cons r rest ih =>
    intro hs
    have ih' : (rest.dropWhile (fun x => x.key = r.key)).Pairwise ikLt →
        (compactStream cfg (rest.dropWhile (fun x => x.key = r.key))).filter
          (fun r => decide (r.key = u)) =
        outGroup cfg ((rest.dropWhile (fun x => x.key = r.key)).filter
          (fun r => decide (r.key = u))) := ih
    have hsortdw : (rest.dropWhile (fun x => x.key = r.key)).Pairwise ikLt :=
      hs.sublist ((List.dropWhile_sublist _).trans (List.sublist_cons_self r rest))
    have hcross : ∀ y ∈ rest.dropWhile (fun x => x.key = r.key),
        r.key.data < y.key.data := sorted_dropWhile_key_lt hs
    rw [compactStream_cons, List.filter_append]
    by_cases hu : r.key = u
    · have hchunkkeys : ∀ x ∈ r :: rest.takeWhile (fun x => x.key = r.key),
          x.key = u := by
        intro x hx
        rcases List.mem_cons.mp hx with h | h
        · rw [h, hu]
        · have h2 : x.key = r.key := by simpa using List.mem_takeWhile_imp h
          rw [h2, hu]
      have hfC : (r :: rest.takeWhile (fun x => x.key = r.key)).filter
          (fun r => decide (r.key = u)) =
          r :: rest.takeWhile (fun x => x.key = r.key) :=
        List.filter_eq_self.mpr (fun x hx => by simpa using hchunkkeys x hx)
      have hfog : (outGroup cfg (r :: rest.takeWhile (fun x => x.key = r.key))).filter
          (fun r => decide (r.key = u)) =
          outGroup cfg (r :: rest.takeWhile (fun x => x.key = r.key)) := by
        refine List.filter_eq_self.mpr ?_
        intro x hx
        obtain ⟨src, hsrc, hk⟩ := outGroup_key_source cfg _ x hx
        have h2 := hchunkkeys src hsrc
        rw [hk] at h2
        simpa using h2
      have hfdw : (rest.dropWhile (fun x => x.key = r.key)).filter
          (fun r => decide (r.key = u)) = [] := by
        rw [List.filter_eq_nil_iff]
        intro y hy
        have hlt := hcross y hy
        simp only [decide_eq_true_eq]
        intro hyk
        rw [hyk, ← hu] at hlt
        exact lt_irrefl _ hlt
      have hfs : (compactStream cfg (rest.dropWhile (fun x => x.key = r.key))).filter
          (fun r => decide (r.key = u)) = [] := by
        rw [List.filter_eq_nil_iff]
        intro y hy
        obtain ⟨src, hsrc, hk⟩ := compactStream_key_source cfg _ y hy
        have hlt := hcross src hsrc
        simp only [decide_eq_true_eq]
        intro hyk
        rw [hk, hyk, ← hu] at hlt
        exact lt_irrefl _ hlt
      have hfin : (r :: rest).filter (fun r => decide (r.key = u)) =
          r :: rest.takeWhile (fun x => x.key = r.key) := by
        conv_lhs => rw [show r :: rest = (r :: rest.takeWhile (fun x => x.key = r.key)) ++
          rest.dropWhile (fun x => x.key = r.key) from by
            rw [List.cons_append, List.takeWhile_append_dropWhile]]
        rw [List.filter_append, hfC, hfdw, List.append_nil]
      rw [hfog, hfs, List.append_nil, hfin]
    · have hchunkkeys : ∀ x ∈ r :: rest.takeWhile (fun x => x.key = r.key),
          x.key ≠ u := by
        intro x hx
        rcases List.mem_cons.mp hx with h | h
        · rw [h]; exact hu
        · have h2 : x.key = r.key := by simpa using List.mem_takeWhile_imp h
          rw [h2]; exact hu
      have hfC : (r :: rest.takeWhile (fun x => x.key = r.key)).filter
          (fun r => decide (r.key = u)) = [] := by
        rw [List.filter_eq_nil_iff]
        intro x hx
        simpa using hchunkkeys x hx
      have hfog : (outGroup cfg (r :: rest.takeWhile (fun x => x.key = r.key))).filter
          (fun r => decide (r.key = u)) = [] := by
        rw [List.filter_eq_nil_iff]
        intro x hx
        obtain ⟨src, hsrc, hk⟩ := outGroup_key_source cfg _ x hx
        have h2 := hchunkkeys src hsrc
        rw [hk] at h2
        simpa using h2
      have hfin : (r :: rest).filter (fun r => decide (r.key = u)) =
          (rest.dropWhile (fun x => x.key = r.key)).filter
            (fun r => decide (r.key = u)) := by
        conv_lhs => rw [show r :: rest = (r :: rest.takeWhile (fun x => x.key = r.key)) ++
          rest.dropWhile (fun x => x.key = r.key) from by
            rw [List.cons_append, List.takeWhile_append_dropWhile]]
        rw [List.filter_append, hfC, List.nil_append]
      rw [hfog, List.nil_append, hfin]
      exact ih' hsortdw

/-! ## C1: snapshot consistency -/

/-- Snapshot consistency of the whole stream: at every listed snapshot and
every user key, the emitted stream resolves to the same value (or absence)
as the input stream, provided the input is strictly sorted and uses
SingleDelete correctly. -/
theorem snapshotConsistency (cfg : Config) (input : List Record)
    (hsorted : ikSorted input) (hsd : sdOkStream input)
    (hsnap : cfg.snapshots.Pairwise (· < ·)) (s : Nat) (hs : s ∈ cfg.snapshots)
    (u : String) :
    userResolve cfg s u (compactStream cfg input) = userResolve cfg s u input := by
  unfold userResolve
  rw [filter_key_seq_split, filter_key_seq_split,
    compactStream_filter_key cfg u input hsorted,
    outGroup_eq_coreOut_of_snap cfg hs]
  have hG := hsd u
  refine groupConsistent cfg hsnap hs _ ?_ hG.1 hG.2
  refine desc_of_sorted_const_key
    ((show input.Pairwise ikLt from hsorted).sublist (List.filter_sublist _)) ?_
  intro x hx y hy
  have hxk : x.key = u := by simpa using (List.mem_filter.mp hx).2
  have hyk : y.key = u := by simpa using (List.mem_filter.mp hy).2
  rw [hxk, hyk]

/-- C1 (amended): for every strictly InternalKey-sorted input stream that
uses SingleDelete correctly (in each user-key group holding a SingleDelete
there is no Merge record and at most one Put below each SingleDelete), for
every user key `u` and every snapshot `s` of the ascending snapshot list,
resolving `u` at `s` over the iterator output equals resolving it over the
input. -/
theorem c1_snapshot_consistency (cfg : Config) (input out : List Record)
    (hsorted : ikSorted input) (hsd : sdOkStream input)
    (hsnap : cfg.snapshots.Pairwise (· < ·)) (s : Nat) (hs : s ∈ cfg.snapshots)
    (hrun : compactIter cfg input = .ok out) (u : String) :
    userResolve cfg s u out = userResolve cfg s u input := by
  have hout : out = compactStream cfg input := by
    unfold compactIter at hrun
    split at hrun
    · cases hrun
    · exact (Except.ok.inj hrun).symm
  rw [hout]
  exact snapshotConsistency cfg input hsorted hsd hsnap s hs u

/-- Counterexample for C1 as stated: a strictly sorted input that misuses
SingleDelete (one SingleDelete above two Puts of its key in one snapshot
bucket, undefined behaviour per the spec glossary) loses the lower Put for
the reader at snapshot 100: the input resolves "k" to "b", the output to
nothing, although 100 is a listed snapshot. -/
theorem c1_counterexample :
    ikSorted inMisuse ∧
    cfgSnap100.snapshots.Pairwise (· < ·) ∧
    100 ∈ cfgSnap100.snapshots ∧
    compactIter cfgSnap100 inMisuse = .ok (compactStream cfgSnap100 inMisuse) ∧
    userResolve cfgSnap100 100 "k" (compactStream cfgSnap100 inMisuse) = none ∧
    userResolve cfgSnap100 100 "k" inMisuse = some "b" :=
  ⟨by unfold ikSorted inMisuse; decide, by decide, by decide, rfl, by decide, by decide⟩

/-- Witness for C1: a well-formed two-Put group under a listed snapshot at
100; the amended theorem applies and its hypotheses hold concretely. -/
theorem c1_witness :
    userResolve cfgSnap100 100 "k"
        (compactStream cfgSnap100
          [⟨"k", "a", .vput, 150⟩, ⟨"k", "b", .vput, 50⟩]) =
      userResolve cfgSnap100 100 "k"
        [⟨"k", "a", .vput, 150⟩, ⟨"k", "b", .vput, 50⟩] :=
  c1_snapshot_consistency cfgSnap100
    [⟨"k", "a", .vput, 150⟩, ⟨"k", "b", .vput, 50⟩]
    (compactStream cfgSnap100 [⟨"k", "a", .vput, 150⟩, ⟨"k", "b", .vput, 50⟩])
    (by unfold ikSorted; decide) (sdOkStream_of_noSd (by decide)) (by decide)
    100 (by decide) rfl "k"

/-! ## C9: idempotence on visible state -/

/-- The record policy preserves the at-most-one-Put-below-a-SingleDelete
discipline of a Merge-free group. -/
theorem coreOut_sdBelowOk (cfg : Config) :
    ∀ g : List Record, noMerge g → sdBelowOk g → sdBelowOk (coreOut cfg g) := by
  refine chunksBy_induction (fun r => bucket cfg.snapshots r.seq) _ ?_ ?_
  · intro _ _
    rw [coreOut_nil]
    trivial
  · intro r rest ih hnm hsb
    obtain ⟨rk, rv, rt, rq⟩ := r
    have ih' : noMerge (rest.dropWhile
          (fun x => bucket cfg.snapshots x.seq = bucket cfg.snapshots rq)) →
        sdBelowOk (rest.dropWhile
          (fun x => bucket cfg.snapshots x.seq = bucket cfg.snapshots rq)) →
        sdBelowOk (coreOut cfg (rest.dropWhile
          (fun x => bucket cfg.snapshots x.seq = bucket cfg.snapshots rq))) := ih
    have hco : coreOut cfg (Record.mk rk rv rt rq :: rest) =
        runOut cfg (Record.mk rk rv rt rq :: rest.takeWhile
          (fun x => bucket cfg.snapshots x.seq = bucket cfg.snapshots rq)) ++
        coreOut cfg (rest.dropWhile
          (fun x => bucket cfg.snapshots x.seq = bucket cfg.snapshots rq)) :=
      coreOut_cons cfg _ rest
    have hdwsub : (rest.dropWhile
        (fun x => bucket cfg.snapshots x.seq = bucket cfg.snapshots rq)).Sublist rest :=
      List.dropWhile_sublist _
    have hnmrest : noMerge rest := fun x hx => hnm x (List.mem_cons_of_mem _ hx)
    have hCO : sdBelowOk (coreOut cfg (rest.dropWhile
        (fun x => bucket cfg.snapshots x.seq = bucket cfg.snapshots rq))) :=
      ih' (noMerge_sublist hdwsub hnmrest) (sdBelowOk_sublist hdwsub hsb.2)
    have hpcCO : putCount (coreOut cfg (rest.dropWhile
        (fun x => bucket cfg.snapshots x.seq = bucket cfg.snapshots rq))) ≤
        putCount (rest.dropWhile
          (fun x => bucket cfg.snapshots x.seq = bucket cfg.snapshots rq)) :=
      coreOut_putCount cfg _
    have hdwle : putCount (rest.dropWhile
        (fun x => bucket cfg.snapshots x.seq = bucket cfg.snapshots rq)) ≤
        putCount rest := putCount_sublist hdwsub
    rw [hco, sdBelowOk_append_iff]
    refine ⟨?_, hCO⟩
    cases rt with
    | vput =>
      have hro : runOut cfg (Record.mk rk rv .vput rq :: rest.takeWhile
          (fun x => bucket cfg.snapshots x.seq = bucket cfg.snapshots rq)) =
          if bucket cfg.snapshots rq = none ∧
            filterRemoves cfg (Record.mk rk rv .vput rq) then []
          else [Record.mk rk rv .vput rq] := rfl
      rw [hro]
      split
      · trivial
      · refine sdBelowOkP_of_noSd ?_
        intro x hx
        rw [List.mem_singleton.mp hx]
        intro hc
        cases hc
    | vdel =>
      rw [runOut_del_eq]
      split
      · trivial
      · refine sdBelowOkP_of_noSd ?_
        intro x hx
        rw [List.mem_singleton.mp hx]
        intro hc
        cases hc
    | vmerge => exact absurd rfl (hnm _ (List.mem_cons_self _ _))
    | vsdel =>
      have hpc1 : putCount rest ≤ 1 := hsb.1 rfl
      rcases hTW : rest.takeWhile
          (fun x => bucket cfg.snapshots x.seq = bucket cfg.snapshots rq) with _ | ⟨p, t1⟩
      · rw [hTW, runOut_sdel_nil_eq]
        have hk : putCount (coreOut cfg (rest.dropWhile
            (fun x => bucket cfg.snapshots x.seq = bucket cfg.snapshots rq))) ≤ 1 :=
          hpcCO.trans (hdwle.trans hpc1)
        exact ⟨fun _ => by rw [putCount_nil]; omega, trivial⟩
      · rw [hTW, runOut_sdel_cons_eq]
        by_cases hp : p.vt = VType.vput
        · rw [if_pos hp]
          have hsplitc : putCount (rest.takeWhile
              (fun x => bucket cfg.snapshots x.seq = bucket cfg.snapshots rq)) +
              putCount (rest.dropWhile
                (fun x => bucket cfg.snapshots x.seq = bucket cfg.snapshots rq)) =
              putCount rest := by
            rw [← putCount_append, List.takeWhile_append_dropWhile]
          have hp1 : 1 ≤ putCount (rest.takeWhile
              (fun x => bucket cfg.snapshots x.seq = bucket cfg.snapshots rq)) := by
            rw [hTW]
            exact putCount_pos_of_mem (List.mem_cons_self _ _) hp
          have hk0 : putCount (coreOut cfg (rest.dropWhile
              (fun x => bucket cfg.snapshots x.seq = bucket cfg.snapshots rq))) = 0 :=
            Nat.le_zero.mp (hpcCO.trans (by omega))
          cases hew : cfg.ewcs with
          | none => trivial
          | some w =>
            by_cases hlt : w < rq
            · show sdBelowOkP (putCount (coreOut cfg (rest.dropWhile
                  (fun x => bucket cfg.snapshots x.seq = bucket cfg.snapshots rq))))
                  (if w < rq then [Record.mk rk rv VType.vsdel rq, p] else [])
              rw [if_pos hlt]
              refine ⟨fun _ => ?_, fun hps => ?_, trivial⟩
              · rw [putCount_cons, if_pos hp, putCount_nil, hk0]
              · rw [hp] at hps
                cases hps
            · show sdBelowOkP (putCount (coreOut cfg (rest.dropWhile
                  (fun x => bucket cfg.snapshots x.seq = bucket cfg.snapshots rq))))
                  (if w < rq then [Record.mk rk rv VType.vsdel rq, p] else [])
              rw [if_neg hlt]
              trivial
        · rw [if_neg hp]
          have hk : putCount (coreOut cfg (rest.dropWhile
              (fun x => bucket cfg.snapshots x.seq = bucket cfg.snapshots rq))) ≤ 1 :=
            hpcCO.trans (hdwle.trans hpc1)
          exact ⟨fun _ => by rw [putCount_nil]; omega, trivial⟩

theorem coreOut_sdOk (cfg : Config) (g : List Record) (hsd : sdOk g) :
    sdOk (coreOut cfg g) := by
  constructor
  · rintro ⟨x, hx, hc⟩
    have hxg : x ∈ g := by
      rcases coreOut_mem_or_put cfg g x hx with h | h
      · exact h
      · rw [h] at hc
        cases hc
    exact coreOut_noMerge (hsd.1 ⟨x, hxg, hc⟩)
  · by_cases hex : ∃ x ∈ g, x.vt = .vsdel
    · exact coreOut_sdBelowOk cfg g (hsd.1 hex) hsd.2
    · refine sdBelowOk_of_noSd ?_
      intro x hx hc
      rcases coreOut_mem_or_put cfg g x hx with h | h
      · exact hex ⟨x, h, hc⟩
      · rw [h] at hc
        cases hc

theorem sdBelowOk_map_zeroRec (cfg : Config) (l : List Record)
    (h : sdBelowOk l) : sdBelowOk (l.map (zeroRec cfg)) := by
  induction l with
  | nil => trivial
  | cons a l ih =>
    refine ⟨?_, ih h.2⟩
    intro hv
    rw [zeroRec_vt] at hv
    rw [putCount_map_zeroRec]
    exact h.1 hv

theorem outGroup_sdOk (cfg : Config) (g : List Record) (hsd : sdOk g) :
    sdOk (outGroup cfg g) := by
  have hc := coreOut_sdOk cfg g hsd
  unfold outGroup
  split
  · constructor
    · rintro ⟨x, hx, hcx⟩
      intro y hy hcy
      obtain ⟨y0, hy0, hyz⟩ := List.mem_map.mp hy
      obtain ⟨x0, hx0, hxz⟩ := List.mem_map.mp hx
      have hx0sd : x0.vt = .vsdel := by
        rw [← zeroRec_vt cfg x0, hxz]
        exact hcx
      have hy0m : y0.vt ≠ .vmerge := hc.1 ⟨x0, hx0, hx0sd⟩ y0 hy0
      rw [← hyz, zeroRec_vt] at hcy
      exact hy0m hcy
    · exact sdBelowOk_map_zeroRec cfg _ hc.2
  · exact hc

/-- The emitted stream uses SingleDelete correctly whenever the input does:
well-usedness per user key is preserved by the record policy and by
sequence-number zeroing. -/
theorem compactStream_sdOkStream (cfg : Config) (input : List Record)
    (hsorted : ikSorted input) (hsd : sdOkStream input) :
    sdOkStream (compactStream cfg input) := by
  intro u
  rw [compactStream_filter_key cfg u input hsorted]
  exact outGroup_sdOk cfg _ (hsd u)

/-- C9: for an input stream that itself came out of a compaction of a
well-formed stream (strictly sorted, SingleDelete well used), running the
compaction again with the same snapshot list and no compaction filter leaves
the user-visible state unchanged: at every listed snapshot and every user
key, the second output resolves exactly as the first output does. -/
theorem c9_idempotence (cfg cfg2 : Config) (input out1 out2 : List Record)
    (hsorted : ikSorted input) (hsd : sdOkStream input)
    (hsnap : cfg.snapshots.Pairwise (· < ·))
    (h1 : compactIter cfg input = .ok out1)
    (hsame : cfg2.snapshots = cfg.snapshots) (_hnf : cfg2.cfilter = none)
    (h2 : compactIter cfg2 out1 = .ok out2)
    (s : Nat) (hs : s ∈ cfg.snapshots) (u : String) :
    userResolve cfg2 s u out2 = userResolve cfg2 s u out1 := by
  have hout1 : out1 = compactStream cfg input := by
    unfold compactIter at h1
    split at h1
    · cases h1
    · exact (Except.ok.inj h1).symm
  have hsorted1 : ikSorted out1 := by
    rw [hout1]
    exact compactStream_sorted cfg input hsorted
  have hsd1 : sdOkStream out1 := by
    rw [hout1]
    exact compactStream_sdOkStream cfg input hsorted hsd
  have hsnap2 : cfg2.snapshots.Pairwise (· < ·) := by
    rw [hsame]
    exact hsnap
  have hs2 : s ∈ cfg2.snapshots := by
    rw [hsame]
    exact hs
  have hout2 : out2 = compactStream cfg2 out1 := by
    unfold compactIter at h2
    split at h2
    · cases h2
    · exact (Except.ok.inj h2).symm
  rw [hout2]
  exact snapshotConsistency cfg2 out1 hsorted1 hsd1 hsnap2 s hs2 u

/-- Witness for C9: recompacting the output of a two-Put group under a
listed snapshot; all hypotheses hold concretely. -/
theorem c9_witness :
    userResolve cfgSnap100 100 "k"
        (compactStream cfgSnap100 (compactStream cfgSnap100
          [⟨"k", "a", .vput, 150⟩, ⟨"k", "b", .vput, 50⟩])) =
      userResolve cfgSnap100 100 "k"
        (compactStream cfgSnap100
          [⟨"k", "a", .vput, 150⟩, ⟨"k", "b", .vput, 50⟩]) :=
  c9_idempotence cfgSnap100 cfgSnap100
    [⟨"k", "a", .vput, 150⟩, ⟨"k", "b", .vput, 50⟩]
    (compactStream cfgSnap100 [⟨"k", "a", .vput, 150⟩, ⟨"k", "b", .vput, 50⟩])
    (compactStream cfgSnap100 (compactStream cfgSnap100
      [⟨"k", "a", .vput, 150⟩, ⟨"k", "b", .vput, 50⟩]))
    (by unfold ikSorted; decide) (sdOkStream_of_noSd (by decide)) (by decide)
    rfl rfl rfl rfl 100 (by decide) "k"

end HapDB
